import Mathlib

/-!
# EntryServer — verification of the core behaviours

Shallow embedding of the EntryServer TypeScript service (an HTTP bridge over
the Actual budgeting client) and proofs about its core mechanisms:

* amount sign conversion (`src/schemas/entries.ts`),
* budget catalog resolution (`src/actual/budgetService.ts`),
* the per-budget lock manager (`src/actual/locks.ts`),
* the idempotency cache and entry engine (`src/actual/entryService.ts`),
* auth-failure tracking and request rate limiting (`src/auth/*.ts`).

JavaScript `Map`s are embedded as association lists with JS `Map` semantics
(first-match lookup; `set` replaces in place for an existing key and appends
for a new key; iteration order is insertion order).  JS numbers are embedded
as `ℚ` (external amounts) and `ℤ`/`Nat` (minor units, timestamps); the float
rounding of the source is benign at the precisions the code manipulates.
Promise-based control flow is embedded by explicit state passing, with a
promise represented by its resolution time (`Option Nat`, `none` = the
promise never resolves).
-/

namespace EntryServer

/-- Error taxonomy of `src/errors.ts` (each constructor corresponds to one
`AppError` subclass; `rateLimited` carries the `retryAfterMs` detail). -/
inductive AppErr where
  | validation : AppErr
  | unauthorized : AppErr
  | notFound : AppErr
  | conflict : AppErr
  | rateLimited (retryAfterMs : Nat) : AppErr
  | upstream : AppErr
  | internal : AppErr
deriving DecidableEq, Repr

/-- HTTP status code attached to each error class in `src/errors.ts`. -/
def AppErr.statusCode : AppErr → Nat
  | .validation => 400
  | .unauthorized => 401
  | .notFound => 404
  | .conflict => 409
  | .rateLimited _ => 429
  | .upstream => 502
  | .internal => 500

/-! ## Association lists with JS `Map` semantics

The service keeps all of its mutable state in JS `Map`s.  We embed a `Map`
as a `List (key × value)` in insertion order.  `aget` is lookup (keys are
unique, so first match), `aset` is `Map.set` (replace in place, else append),
`adel` is `Map.delete` (remove the key, preserving the order of the rest). -/

/-- JS `Map.get`. -/
def aget {α : Type} (m : List (String × α)) (k : String) : Option α :=
  match m with
  | [] => none
  | (k', v) :: rest => if k' = k then some v else aget rest k

/-- JS `Map.set`: replaces the value in place for an existing key, appends
a new binding otherwise (JS `Map` keeps the original insertion position on
overwrite). -/
def aset {α : Type} (m : List (String × α)) (k : String) (v : α) : List (String × α) :=
  match m with
  | [] => [(k, v)]
  | (k', v') :: rest => if k' = k then (k', v) :: rest else (k', v') :: aset rest k v

/-- JS `Map.delete`: removes the binding for `k` if present. -/
def adel {α : Type} (m : List (String × α)) (k : String) : List (String × α) :=
  match m with
  | [] => []
  | (k', v') :: rest => if k' = k then rest else (k', v') :: adel rest k

/-! ## Amount conversion (`src/schemas/entries.ts`)

External amounts are positive decimals, internal amounts are signed integer
minor units (cents).  JS numbers are embedded as `ℚ`; `Math.round` rounds
half toward positive infinity. -/

/-- Direction of a ledger entry (`flowSchema`). -/
inductive Flow where
  | income : Flow
  | expense : Flow
deriving DecidableEq, Repr

/-- Flow filter for listing (`listFlowSchema`). -/
inductive ListFlow where
  | all : ListFlow
  | income : ListFlow
  | expense : ListFlow
deriving DecidableEq, Repr

/-- JS `Math.round`: rounds half toward positive infinity. -/
def jsRound (x : ℚ) : ℤ :=
  ⌊x + 1 / 2⌋

/-- `toMinorUnits(amount) = Math.round(amount * 100)`. -/
def toMinorUnits (amount : ℚ) : ℤ :=
  jsRound (amount * 100)

/-- `fromMinorUnits(amount) = Number((Math.abs(amount) / 100).toFixed(2))`.
`|n| / 100` has at most two decimal places, so `toFixed(2)` followed by
`Number` is the identity on it; the embedding is the exact rational. -/
def fromMinorUnits (amount : ℤ) : ℚ :=
  (|amount| : ℚ) / 100

/-- `toActualSignedAmount`: expense maps to `-Math.abs(minor)`, income to
`Math.abs(minor)`. -/
def toActualSignedAmount (amount : ℚ) (flow : Flow) : ℤ :=
  let minor := toMinorUnits amount
  match flow with
  | .expense => -|minor|
  | .income => |minor|

/-- `fromActualSignedAmount`: absolute value scaled back to major units,
with flow `expense` exactly when the signed amount is negative. -/
def fromActualSignedAmount (actualAmount : ℤ) : ℚ × Flow :=
  (fromMinorUnits actualAmount, if actualAmount < 0 then .expense else .income)

/-! ## Budget catalog (`src/actual/budgetService.ts`) -/

/-- `BudgetSummary` / `BudgetConfigItem`: `{id, name}`. -/
structure BudgetSummary where
  id : String
  name : String
deriving DecidableEq, Repr

/-- `ENTRYSERVER_BUDGET_DISCOVERY_MODE`. -/
inductive DiscoveryMode where
  | auto : DiscoveryMode
  | configured : DiscoveryMode
deriving DecidableEq, Repr

/-- The slice of `AppConfig` that `BudgetService` reads. -/
structure BudgetConfig where
  budgetDiscoveryMode : DiscoveryMode
  configuredBudgets : List BudgetSummary
deriving Repr

/-- `BudgetService.listBudgets`.  The upstream discovery call
`actualClientFactory.listBudgets()` is passed in as its result: `.ok` a list
on success, `.error` on a thrown upstream failure. -/
def listBudgets (config : BudgetConfig)
    (discovery : Except Unit (List BudgetSummary)) :
    Except AppErr (List BudgetSummary) :=
  if config.budgetDiscoveryMode = .configured then
    .ok config.configuredBudgets
  else
    match discovery with
    | .ok autoBudgets =>
        if autoBudgets.length > 0 then .ok autoBudgets
        else .ok config.configuredBudgets
    | .error _ =>
        if config.configuredBudgets.length > 0 then .ok config.configuredBudgets
        else .error .upstream


/-! ## Budget lock manager (`src/actual/locks.ts`)

`BudgetLockManager.withBudgetLock(budgetId, timeoutMs, fn)` chains promises:

```
const existing = this.locks.get(budgetId) ?? { tail: Promise.resolve() };
const waitFor = existing.tail;
let release!: () => void;
const currentTail = new Promise<void>((resolve) => { release = resolve; });
const chainedTail = waitFor.finally(() => currentTail);
existing.tail = chainedTail;
this.locks.set(budgetId, existing);
await withTimeout(waitFor, timeoutMs);   // throws ConflictError on timeout
try { return await fn(); } finally {
  release();
  if (this.locks.get(budgetId)?.tail === chainedTail) this.locks.delete(budgetId);
}
```

We embed each promise by its resolution time (`Option Nat`; `none` = never
resolves) and each call by its registration time, timeout, and critical
section duration, processed in registration order:

* a fresh entry's `waitFor` is `Promise.resolve()`, resolution time `0`;
* `withTimeout(waitFor, t)` rejects iff the timer at `arrival + t` fires
  strictly before `waitFor` resolves;
* on timeout the function throws before the `try`, so `release()` is never
  invoked and `currentTail` never resolves; `chainedTail` (which awaits
  `currentTail` through `.finally`) therefore never resolves either, so the
  stored tail becomes `none`;
* on acquisition, `fn` runs over `[start, start + duration]` with
  `start = max arrival waitForTime`, and `chainedTail` resolves at the
  finish time.

The `this.locks.delete` branch in the `finally` is omitted from the model:
it fires only at a moment `r` when the stored tail has already resolved
(at `r`), and a call registered after that moment has `arrival ≥ r`, so
chaining onto the resolved tail (`start = max arrival r = arrival`) and
starting from a fresh entry (`start = max arrival 0 = arrival`) behave
identically; the poisoned (`none`) tail is never deleted, in the model as
in the source, because the timed-out waiter never reaches its `finally`. -/

/-- Resolution time of a promise; `none` means the promise never resolves. -/
abbrev PTime := Option Nat

/-- One `withBudgetLock` call: target budget, registration time, timeout,
and how long `fn` runs once admitted. -/
structure LockCall where
  budgetId : String
  arrival : Nat
  timeoutMs : Nat
  duration : Nat
deriving DecidableEq, Repr

/-- Observable outcome of one `withBudgetLock` call: either `fn` ran over
`[start, finish]`, or the wait timed out with a `ConflictError` at
`failedAt`. -/
inductive LockOutcome where
  | ran (start finish : Nat) : LockOutcome
  | conflict (failedAt : Nat) : LockOutcome
deriving DecidableEq, Repr

/-- `existing.tail` for a budget id: stored tail, or `Promise.resolve()`
(resolution time `0`) when the id is absent from the lock map. -/
def lockWaitFor (locks : List (String × PTime)) (b : String) : PTime :=
  (aget locks b).getD (some 0)

/-- One `withBudgetLock` call against the lock map. -/
def lockStep (locks : List (String × PTime)) (c : LockCall) :
    LockOutcome × List (String × PTime) :=
  match lockWaitFor locks c.budgetId with
  | none =>
      (.conflict (c.arrival + c.timeoutMs), aset locks c.budgetId none)
  | some r =>
      if c.arrival + c.timeoutMs < r then
        (.conflict (c.arrival + c.timeoutMs), aset locks c.budgetId none)
      else
        let start := max c.arrival r
        (.ran start (start + c.duration),
         aset locks c.budgetId (some (start + c.duration)))

/-- Run a list of `withBudgetLock` calls, in registration order, from a given
lock map. -/
def runLocksFrom (locks : List (String × PTime)) :
    List LockCall → List LockOutcome
  | [] => []
  | c :: rest =>
      let step := lockStep locks c
      step.1 :: runLocksFrom step.2 rest

/-- Run a list of `withBudgetLock` calls against a fresh `BudgetLockManager`. -/
def runLocks (cs : List LockCall) : List LockOutcome :=
  runLocksFrom [] cs

/-- Registration order is temporal order (calls are registered when they
arrive). -/
def ArrivalsOrdered (cs : List LockCall) : Prop :=
  cs.Chain' (fun c c' => c.arrival ≤ c'.arrival)

/-- The outcomes of the calls for one budget id, in order. -/
def selectBudget (b : String) (cs : List LockCall) (outs : List LockOutcome) :
    List LockOutcome :=
  ((cs.zip outs).filter (fun p => p.1.budgetId == b)).map Prod.snd

/-- Single-budget run: the same step function with the per-id tail threaded
directly. -/
def runSingle (t0 : PTime) : List LockCall → List LockOutcome
  | [] => []
  | c :: rest =>
      match t0 with
      | none => .conflict (c.arrival + c.timeoutMs) :: runSingle none rest
      | some r =>
          if c.arrival + c.timeoutMs < r then
            .conflict (c.arrival + c.timeoutMs) :: runSingle none rest
          else
            .ran (max c.arrival r) (max c.arrival r + c.duration) ::
              runSingle (some (max c.arrival r + c.duration)) rest


/-! ## Entry engine and idempotency cache (`src/actual/entryService.ts`)

`EntryService` keeps a nested JS `Map` `budgetId → (idempotencyKey →
IdempotencyRecord)` plus a live counter `idempotencyRecordCount`.  The
upstream session (`src/actual/clientFactory.ts`) is embedded as an
environment giving the entity lists and the ids the upstream mints, and
each upstream call made by an operation is recorded in an operation trace. -/

/-- `NamedEntity`: `{id, name}` for accounts, categories and payees. -/
structure NamedEntity where
  id : String
  name : String
deriving DecidableEq, Repr

/-- `ActualTransaction` as returned by `session.listTransactions`. -/
structure ActualTransaction where
  id : String
  date : String
  amount : Int
  accountId : String
  categoryId : Option String
  payeeId : Option String
  notes : Option String
deriving DecidableEq, Repr

/-- `ActualTransactionCreate`, the payload of `session.createTransaction`. -/
structure ActualTransactionCreate where
  accountId : String
  categoryId : String
  payeeId : Option String
  date : String
  amount : Int
  notes : Option String
deriving DecidableEq, Repr

/-- `EntryResponseItem`: the external ledger-entry shape. -/
structure EntryResponseItem where
  id : String
  budgetId : String
  amount : ℚ
  flow : Flow
  date : String
  payee : String
  category : String
  account : String
  notes : Option String
deriving DecidableEq, Repr

/-- `CreateEntryInput`: validated create payload plus budget id and the
optional `Idempotency-Key` header. -/
structure CreateEntryInput where
  budgetId : String
  amount : ℚ
  flow : Flow
  date : String
  payee : String
  category : String
  account : String
  notes : Option String
  idempotencyKey : Option String
deriving DecidableEq, Repr

/-- The fingerprint is `JSON.stringify` of the business fields with a fixed
key order.  `JSON.stringify` is injective on this record (distinct numbers
and strings have distinct JSON encodings), so it is embedded as the record
itself — with absent notes normalized to `""`, exactly as the source writes
`notes: input.notes ?? ''`. -/
structure Fingerprint where
  amount : ℚ
  flow : Flow
  date : String
  payee : String
  category : String
  account : String
  notes : String
deriving DecidableEq, Repr

/-- `EntryService.fingerprintCreateInput`. -/
def fingerprintCreateInput (input : CreateEntryInput) : Fingerprint :=
  ⟨input.amount, input.flow, input.date, input.payee, input.category,
   input.account, input.notes.getD ""⟩

/-- `IdempotencyRecord`: `{fingerprint, response, createdAt}`. -/
structure IdempotencyRecord where
  fingerprint : Fingerprint
  response : EntryResponseItem
  createdAt : Nat
deriving DecidableEq, Repr

/-- The mutable state of `EntryService`: the nested record map and the live
record counter. -/
structure EntryServiceState where
  idempotencyRecords : List (String × List (String × IdempotencyRecord))
  idempotencyRecordCount : Nat
deriving DecidableEq, Repr

/-- Fresh `EntryService` state. -/
def EntryServiceState.emptyState : EntryServiceState := ⟨[], 0⟩

/-- Nested lookup: `idempotencyRecords.get(budgetId)?.get(key)`. -/
def aget2 (s : EntryServiceState) (budgetId key : String) :
    Option IdempotencyRecord :=
  (aget s.idempotencyRecords budgetId).bind (fun m => aget m key)

/-- The actual number of `(budgetId, key)` records held across all
per-budget maps. -/
def totalRecords (s : EntryServiceState) : Nat :=
  (s.idempotencyRecords.map (fun p => p.2.length)).sum

/-- `EntryService.deleteRecord`: delete `(budgetId, key)`, decrement the
counter (`Math.max(0, count - 1)`, i.e. `Nat` truncated subtraction) only
when a record was actually deleted, and drop the per-budget map if it
became empty. -/
def deleteRecord (s : EntryServiceState) (budgetId key : String) :
    EntryServiceState :=
  match aget s.idempotencyRecords budgetId with
  | none => s
  | some budgetRecords =>
      let deleted := (aget budgetRecords key).isSome
      let newInner := adel budgetRecords key
      let newCount :=
        if deleted then s.idempotencyRecordCount - 1
        else s.idempotencyRecordCount
      let outer := aset s.idempotencyRecords budgetId newInner
      ⟨if newInner.isEmpty then adel outer budgetId else outer, newCount⟩

/-- `EntryService.pruneExpiredIdempotencyRecords`: the source iterates every
`(budgetId, key)` with `now - createdAt > ttl` and calls `deleteRecord` on
it.  Since each expired record is present until its own deletion, the loop
equals filtering every per-budget map down to its unexpired records
(`now - createdAt ≤ ttl`, with `now - createdAt` the JS difference, which
for `createdAt > now` is negative exactly when the `Nat` difference is `0`),
dropping per-budget maps that became empty, and decrementing the counter
once per deleted record (`Math.max(0, ·)` stepwise = truncated subtraction
of the total). -/
def pruneExpiredIdempotencyRecords (ttl : Nat) (s : EntryServiceState)
    (now : Nat) : EntryServiceState :=
  let prunedOuter := (s.idempotencyRecords.map
      (fun p => (p.1, p.2.filter (fun q => now - q.2.createdAt ≤ ttl)))).filter
      (fun p => !p.2.isEmpty)
  let newTotal := (prunedOuter.map (fun p => p.2.length)).sum
  ⟨prunedOuter, s.idempotencyRecordCount - (totalRecords s - newTotal)⟩

/-- All records with their budget ids and keys, in map iteration order. -/
def allRecords (s : EntryServiceState) :
    List (String × String × IdempotencyRecord) :=
  (s.idempotencyRecords.map (fun p => p.2.map (fun q => (p.1, q.1, q.2)))).flatten

/-- The scan of `evictOldestIdempotencyRecord`: strictly-smaller `createdAt`
wins, so the first record with the minimal `createdAt` in iteration order is
selected (the JS scan starts from `oldestCreatedAt = +∞`). -/
def findOldest (s : EntryServiceState) : Option (String × String × Nat) :=
  (allRecords s).foldl
    (fun best q =>
      match best with
      | none => some (q.1, q.2.1, q.2.2.createdAt)
      | some (b, k, t) =>
          if q.2.2.createdAt < t then some (q.1, q.2.1, q.2.2.createdAt)
          else some (b, k, t))
    none

/-- `EntryService.evictOldestIdempotencyRecord`: returns whether a record
was evicted.  The source guards `if (!oldestBudgetId || !oldestKey)`, and an
empty string is falsy in JS, so a winning record whose budget id or key is
`""` makes eviction report failure without deleting. -/
def evictOldestIdempotencyRecord (s : EntryServiceState) :
    Bool × EntryServiceState :=
  match findOldest s with
  | none => (false, s)
  | some (b, k, _) =>
      if b = "" ∨ k = "" then (false, s)
      else (true, deleteRecord s b k)

/-- The `while (count >= max)` eviction loop of `storeIdempotentResponse`,
with explicit fuel.  Each successful eviction removes one record, and once
the maps are empty (or a falsy name blocks eviction) the loop breaks, so
`totalRecords s + 1` rounds of fuel always suffice for the loop to reach
its exit condition. -/
def evictLoop (maxRecords : Nat) : Nat → EntryServiceState → EntryServiceState
  | 0, s => s
  | fuel + 1, s =>
      if maxRecords ≤ s.idempotencyRecordCount then
        let e := evictOldestIdempotencyRecord s
        if e.1 then evictLoop maxRecords fuel e.2 else s
      else s

/-- `EntryService.storeIdempotentResponse`.  `isNewRecord` is computed
before any pruning (`budgetRecords.has(key)` on the captured inner map);
only a new key prunes and then evicts down below the cap; the record is
then stored with `createdAt = now`, and the counter is incremented only for
a new key.  The JS code mutates the captured inner map in place; pruning
and eviction mutate that same object, so the map the record is stored into
is the post-prune inner map for `budgetId` (or a fresh one). -/
def storeIdempotentResponse (ttl maxRecords : Nat) (s : EntryServiceState)
    (budgetId idempotencyKey : String) (fingerprint : Fingerprint)
    (response : EntryResponseItem) (now : Nat) : EntryServiceState :=
  let isNewRecord := (aget2 s budgetId idempotencyKey).isNone
  let s1 :=
    if isNewRecord then
      let sp := pruneExpiredIdempotencyRecords ttl s now
      evictLoop maxRecords (totalRecords sp + 1) sp
    else s
  let inner := (aget s1.idempotencyRecords budgetId).getD []
  ⟨aset s1.idempotencyRecords budgetId
      (aset inner idempotencyKey ⟨fingerprint, response, now⟩),
   if isNewRecord then s1.idempotencyRecordCount + 1
   else s1.idempotencyRecordCount⟩

/-- `EntryService.getStoredIdempotentResponse`: prune, then look up
`(budgetId, key)`; a missing record is a miss, a fingerprint mismatch is a
conflict, a match returns the stored response. -/
def getStoredIdempotentResponse (ttl : Nat) (s : EntryServiceState)
    (budgetId idempotencyKey : String) (fingerprint : Fingerprint)
    (now : Nat) :
    Except AppErr (Option EntryResponseItem) × EntryServiceState :=
  let s1 := pruneExpiredIdempotencyRecords ttl s now
  match aget2 s1 budgetId idempotencyKey with
  | none => (.ok none, s1)
  | some existing =>
      if existing.fingerprint ≠ fingerprint then (.error .conflict, s1)
      else (.ok (some existing.response), s1)

/-- The upstream environment a `createEntry` call runs against: the entity
lists the session returns, the id minted for a created payee, and the id
minted for the created transaction. -/
structure UpstreamEnv where
  accounts : List NamedEntity
  categories : List NamedEntity
  payees : List NamedEntity
  createdPayeeId : String
  createdId : String
deriving Repr

/-- One upstream session call, recorded in the order the service issues
them.  The post-write `sync` is recorded even when it fails upstream,
because `createEntry` attempts it unconditionally and swallows its failure. -/
inductive UpstreamOp where
  | syncOp : UpstreamOp
  | getAccountsOp : UpstreamOp
  | getCategoriesOp : UpstreamOp
  | getPayeesOp : UpstreamOp
  | createPayeeOp (name : String) : UpstreamOp
  | createTransactionOp (t : ActualTransactionCreate) : UpstreamOp
deriving DecidableEq, Repr

/-- `findByName`: exact name match, first hit. -/
def findByName (items : List NamedEntity) (name : String) : Option NamedEntity :=
  items.find? (fun item => item.name == name)

/-- The upstream half of `EntryService.createEntry` (the body of the
`withBudget` callback): sync, fetch the three entity lists, resolve account
and category by exact name (not-found failure otherwise), resolve the payee
by exact name or create it, sign-convert the amount, create the
transaction, attempt the post-write sync (failure swallowed), build the
response from the caller input plus the minted id, and store it when an
idempotency key was supplied (with the same `now` captured at the start of
the locked section). -/
def createEntryUpstream (ttl maxRecords : Nat) (env : UpstreamEnv)
    (s : EntryServiceState) (input : CreateEntryInput) (now : Nat) :
    Except AppErr EntryResponseItem × EntryServiceState × List UpstreamOp :=
  let baseOps : List UpstreamOp :=
    [.syncOp, .getAccountsOp, .getCategoriesOp, .getPayeesOp]
  match findByName env.accounts input.account with
  | none => (.error .notFound, s, baseOps)
  | some account =>
      match findByName env.categories input.category with
      | none => (.error .notFound, s, baseOps)
      | some category =>
          let payeeFound := findByName env.payees input.payee
          let payee := payeeFound.getD ⟨env.createdPayeeId, input.payee⟩
          let payeeOps :=
            if payeeFound.isSome then ([] : List UpstreamOp)
            else [.createPayeeOp input.payee]
          let created : ActualTransactionCreate :=
            ⟨account.id, category.id, some payee.id, input.date,
             toActualSignedAmount input.amount input.flow, input.notes⟩
          let ops := baseOps ++ payeeOps ++ [.createTransactionOp created, .syncOp]
          let response : EntryResponseItem :=
            ⟨env.createdId, input.budgetId, input.amount, input.flow,
             input.date, payee.name, category.name, account.name, input.notes⟩
          let s2 :=
            match input.idempotencyKey with
            | some key =>
                storeIdempotentResponse ttl maxRecords s input.budgetId key
                  (fingerprintCreateInput input) response now
            | none => s
          (.ok response, s2, ops)

/-- `EntryService.createEntry`.  `assertBudgetAccessible` is embedded by the
id list `listBudgets` resolved to; the per-budget lock admission around the
body is modeled by `runLocks` (in a single-call run the lock is free, so
the body runs immediately); `now = Date.now()` is captured once.  The trace
lists the upstream calls performed: an idempotency-cache hit or conflict
returns before the session is even opened, so its trace is empty. -/
def createEntry (ttl maxRecords : Nat) (accessibleBudgetIds : List String)
    (env : UpstreamEnv) (s : EntryServiceState) (input : CreateEntryInput)
    (now : Nat) :
    Except AppErr EntryResponseItem × EntryServiceState × List UpstreamOp :=
  if accessibleBudgetIds.contains input.budgetId then
    match input.idempotencyKey with
    | some key =>
        match getStoredIdempotentResponse ttl s input.budgetId key
            (fingerprintCreateInput input) now with
        | (.error e, s1) => (.error e, s1, [])
        | (.ok (some existing), s1) => (.ok existing, s1, [])
        | (.ok none, s1) => createEntryUpstream ttl maxRecords env s1 input now
    | none => createEntryUpstream ttl maxRecords env s input now
  else (.error .notFound, s, [])

/-! ## Listing entries (`EntryService.listEntries`) -/

/-- `ListEntriesInput` (the validated query; `from`/`to` are renamed
`fromDate`/`toDate` because `from` is a Lean keyword). -/
structure ListEntriesInput where
  budgetId : String
  fromDate : String
  toDate : String
  flow : ListFlow
  limit : Nat
  offset : Nat
deriving DecidableEq, Repr

/-- `ListEntriesResult`. -/
structure ListEntriesResult where
  items : List EntryResponseItem
  limit : Nat
  offset : Nat
  total : Nat
deriving DecidableEq, Repr

/-- The environment of a `listEntries` call: what the session returns. -/
structure ListEnv where
  accounts : List NamedEntity
  categories : List NamedEntity
  payees : List NamedEntity
  transactions : List ActualTransaction
deriving Repr

/-- The filter predicate of `listEntries`: drop transactions outside
`[from, to]`, then apply the flow filter (`expense` keeps strictly negative
signed amounts, `income` keeps non-negative ones, `all` keeps everything).
Dates are `YYYY-MM-DD` strings compared with JS `<`/`>`, embedded as
lexicographic string comparison. -/
def keepTransaction (input : ListEntriesInput) (t : ActualTransaction) : Bool :=
  if t.date < input.fromDate ∨ t.date > input.toDate then false
  else
    match input.flow with
    | .all => true
    | .expense => t.amount < 0
    | .income => 0 ≤ t.amount

/-- The sort comparator of `listEntries`: date ascending, then id ascending
as tie-break (`localeCompare` embedded as code-unit string comparison). -/
def txLe (a b : ActualTransaction) : Prop :=
  if a.date = b.date then a.id ≤ b.id else a.date < b.date

instance : DecidableRel txLe := fun a b => by
  unfold txLe
  infer_instance

instance : IsTotal ActualTransaction txLe where
  total a b := by
    unfold txLe
    by_cases h : a.date = b.date
    · rw [if_pos h, if_pos (Eq.symm h)]
      exact le_total a.id b.id
    · rw [if_neg h, if_neg (fun hh => h (Eq.symm hh))]
      exact lt_or_gt_of_ne h

instance : IsTrans ActualTransaction txLe where
  trans a b c hab hbc := by
    unfold txLe at hab hbc ⊢
    by_cases h1 : a.date = b.date
    · rw [if_pos h1] at hab
      by_cases h2 : b.date = c.date
      · rw [if_pos h2] at hbc
        rw [if_pos (h1.trans h2)]
        exact le_trans hab hbc
      · rw [if_neg h2] at hbc
        rw [if_neg (fun hh => h2 ((Eq.symm h1).trans hh))]
        rw [h1]
        exact hbc
    · rw [if_neg h1] at hab
      by_cases h2 : b.date = c.date
      · rw [if_neg (fun hh => h1 (hh.trans (Eq.symm h2)))]
        rw [← h2]
        exact hab
      · rw [if_neg h2] at hbc
        have hac : a.date < c.date := lt_trans hab hbc
        rw [if_neg (fun hh : a.date = c.date => absurd (hh ▸ hac) (lt_irrefl c.date))]
        exact hac

/-- JS `Array.prototype.sort` is a stable sort; with the total transitive
comparator `txLe` it computes the same list as insertion sort. -/
def sortTransactions (l : List ActualTransaction) : List ActualTransaction :=
  l.insertionSort txLe

/-- `new Map(items.map(i => [i.id, i.name]))`: later entries win. -/
def mapById (items : List NamedEntity) : List (String × String) :=
  items.foldl (fun m item => aset m item.id item.name) []

/-- `transaction.payeeId ? map.get(payeeId) ?? "Unknown" : "Unknown"` — the
guard is a JS truthiness check, so an empty-string id also renders
`"Unknown"`. -/
def lookupNameOpt (m : List (String × String)) (idOpt : Option String) : String :=
  match idOpt with
  | none => "Unknown"
  | some i => if i = "" then "Unknown" else (aget m i).getD "Unknown"

/-- The per-transaction mapping of `listEntries`: amount/flow conversion
plus id→name lookups with the `"Unknown"` placeholder
(`accountById.get(accountId) ?? "Unknown"` has no truthiness guard). -/
def toEntryItem (budgetId : String) (accountById categoryById payeeById :
    List (String × String)) (t : ActualTransaction) : EntryResponseItem :=
  let af := fromActualSignedAmount t.amount
  ⟨t.id, budgetId, af.1, af.2, t.date,
   lookupNameOpt payeeById t.payeeId,
   lookupNameOpt categoryById t.categoryId,
   (aget accountById t.accountId).getD "Unknown",
   t.notes⟩

/-- `EntryService.listEntries`: assert budget accessibility, fetch entities
and transactions, filter by date window and flow, sort by (date, id), count
the survivors as `total`, slice `[offset, offset + limit)`, and map each
survivor to the external shape. -/
def listEntries (accessibleBudgetIds : List String) (env : ListEnv)
    (input : ListEntriesInput) : Except AppErr ListEntriesResult :=
  if accessibleBudgetIds.contains input.budgetId then
    let accountById := mapById env.accounts
    let categoryById := mapById env.categories
    let payeeById := mapById env.payees
    let filtered := sortTransactions (env.transactions.filter (keepTransaction input))
    let paginated := (filtered.drop input.offset).take input.limit
    .ok ⟨paginated.map (toEntryItem input.budgetId accountById categoryById payeeById),
         input.limit, input.offset, filtered.length⟩
  else .error .notFound

/-! ## Abuse guards (`src/auth/apiKeyAuth.ts`, `src/auth/requestRateLimit.ts`)

Both guards keep a bounded per-client-identity state map, pruned on every
access: a TTL sweep first, then — only if still over the client cap — the
entries are sorted by `lastSeenAt` ascending (JS `sort` is stable) and the
overflow-many oldest are deleted. -/

/-- `AuthFailureState`. -/
structure AuthFailureState where
  attempts : Nat
  windowStartedAt : Nat
  blockedUntil : Nat
  lastSeenAt : Nat
deriving DecidableEq, Repr

/-- `RateLimitState`. -/
structure RateLimitState where
  count : Nat
  windowStartedAt : Nat
  lastSeenAt : Nat
deriving DecidableEq, Repr

/-- Stable insertion by ascending key: a new element goes after every
element with a key less than or equal to its own, which is the order a
stable sort (JS `Array.prototype.sort`) produces. -/
def insertByAge {α : Type} (keyOf : α → Nat) (x : String × α) :
    List (String × α) → List (String × α)
  | [] => [x]
  | y :: ys =>
      if keyOf y.2 ≤ keyOf x.2 then y :: insertByAge keyOf x ys
      else x :: y :: ys

/-- `[...entries].sort((a, b) => a[1].lastSeenAt - b[1].lastSeenAt)`:
stable sort by ascending age key. -/
def sortByAge {α : Type} (keyOf : α → Nat) (l : List (String × α)) :
    List (String × α) :=
  l.foldl (fun acc x => insertByAge keyOf x acc) []

/-- Delete the overflow-many oldest entries (the common cap-enforcement
tail of both prune functions). -/
def dropOldest {α : Type} (keyOf : α → Nat) (l : List (String × α))
    (maxTracked : Nat) : List (String × α) :=
  if l.length ≤ maxTracked then l
  else
    let victims := ((sortByAge keyOf l).take (l.length - maxTracked)).map Prod.fst
    victims.foldl (fun m k => adel m k) l

/-- `pruneRateLimitState`: TTL sweep (`now - lastSeenAt > stateTtlMs`
deletes), then cap enforcement. -/
def pruneRateLimitState (stateByClient : List (String × RateLimitState))
    (now stateTtlMs maxTrackedClients : Nat) :
    List (String × RateLimitState) :=
  dropOldest (fun st => st.lastSeenAt)
    (stateByClient.filter (fun p => now - p.2.lastSeenAt ≤ stateTtlMs))
    maxTrackedClients

/-- `pruneFailures`: the TTL sweep additionally spares still-blocked
clients (`state.blockedUntil <= now` is required for deletion), then cap
enforcement. -/
def pruneFailures (failuresByClient : List (String × AuthFailureState))
    (now stateTtlMs maxTrackedClients : Nat) :
    List (String × AuthFailureState) :=
  dropOldest (fun st => st.lastSeenAt)
    (failuresByClient.filter
      (fun p => ¬ (stateTtlMs < now - p.2.lastSeenAt ∧ p.2.blockedUntil ≤ now)))
    maxTrackedClients

/-- The request-rate-limit `preHandler` for one request.  JS mutates the
stored state object in place, so the window reset is visible in the map
even on the throwing path; `lastSeenAt` is updated only after the limit
check passes.  `retryAfterMs = Math.max(0, windowMs - (now -
windowStartedAt))` is `Nat` truncated subtraction. -/
def requestRateLimit (windowMs maxRequests stateTtlMs maxTrackedClients : Nat)
    (stateByClient : List (String × RateLimitState)) (clientId : String)
    (now : Nat) :
    Except AppErr Unit × List (String × RateLimitState) :=
  let m1 := pruneRateLimitState stateByClient now stateTtlMs maxTrackedClients
  let existing := aget m1 clientId
  let st0 := existing.getD ⟨0, now, now⟩
  let st1 :=
    if windowMs ≤ now - st0.windowStartedAt then
      { st0 with count := 0, windowStartedAt := now }
    else st0
  let m2 := if existing.isSome then aset m1 clientId st1 else m1
  if maxRequests ≤ st1.count then
    (.error (.rateLimited (windowMs - (now - st1.windowStartedAt))), m2)
  else
    (.ok (), aset m2 clientId { st1 with count := st1.count + 1, lastSeenAt := now })

/-- The tunables of `buildApiKeyAuth`. -/
structure AuthConfig where
  failureWindowMs : Nat
  maxAttemptsPerWindow : Nat
  blockDurationMs : Nat
  stateTtlMs : Nat
  maxTrackedClients : Nat
deriving DecidableEq, Repr

/-- `countFailedAttempt`: prune, read (or create) the client state, stamp
`lastSeenAt` (an in-place mutation, visible in the map on every path for an
existing entry), fail with 429 while blocked, otherwise clear an expired
block, reset an expired window, count the attempt, and either trip the
block (429 with `retryAfterMs = blockDurationMs`) on reaching the attempt
cap or store the incremented count. -/
def countFailedAttempt (cfg : AuthConfig)
    (failuresByClient : List (String × AuthFailureState)) (clientId : String)
    (now : Nat) :
    Except AppErr Unit × List (String × AuthFailureState) :=
  let m1 := pruneFailures failuresByClient now cfg.stateTtlMs cfg.maxTrackedClients
  let existing := aget m1 clientId
  let st0 := existing.getD ⟨0, now, 0, now⟩
  let st1 := { st0 with lastSeenAt := now }
  let m2 := if existing.isSome then aset m1 clientId st1 else m1
  if now < st1.blockedUntil then
    (.error (.rateLimited (st1.blockedUntil - now)), m2)
  else
    let st2 :=
      if st1.blockedUntil ≤ now ∧ 0 < st1.blockedUntil then
        { st1 with attempts := 0, blockedUntil := 0, windowStartedAt := now }
      else st1
    let st3 :=
      if cfg.failureWindowMs ≤ now - st2.windowStartedAt then
        { st2 with attempts := 0, windowStartedAt := now }
      else st2
    let st4 := { st3 with attempts := st3.attempts + 1 }
    if cfg.maxAttemptsPerWindow ≤ st4.attempts then
      (.error (.rateLimited cfg.blockDurationMs),
       aset m2 clientId { st4 with attempts := 0, blockedUntil := now + cfg.blockDurationMs })
    else
      (.ok (), aset m2 clientId st4)

/-- Whether a request's credentials are valid: the `Authorization` header
is present, a bearer token parses out of it, and the token is
`timingSafeEqual` to the configured key.  Everything else is an invalid
attempt. -/
inductive AuthAttempt where
  | valid : AuthAttempt
  | invalid : AuthAttempt
deriving DecidableEq, Repr

/-- The `apiKeyAuth` `preHandler` for one request: prune, then either count
the failed attempt and fail (401, or the 429 raised inside
`countFailedAttempt`), or — for valid credentials — delete the client's
failure state and succeed.  The valid path never consults `blockedUntil`. -/
def apiKeyAuth (cfg : AuthConfig)
    (failuresByClient : List (String × AuthFailureState)) (clientId : String)
    (attempt : AuthAttempt) (now : Nat) :
    Except AppErr Unit × List (String × AuthFailureState) :=
  let m1 := pruneFailures failuresByClient now cfg.stateTtlMs cfg.maxTrackedClients
  match attempt with
  | .valid => (.ok (), adel m1 clientId)
  | .invalid =>
      match countFailedAttempt cfg m1 clientId now with
      | (.ok _, m2) => (.error .unauthorized, m2)
      | (.error e, m2) => (.error e, m2)

/-- A sequence of requests through the `apiKeyAuth` hook. -/
def runApiKeyAuth (cfg : AuthConfig)
    (m : List (String × AuthFailureState)) :
    List (String × AuthAttempt × Nat) →
    List (Except AppErr Unit) × List (String × AuthFailureState)
  | [] => ([], m)
  | e :: rest =>
      let r := apiKeyAuth cfg m e.1 e.2.1 e.2.2
      let rr := runApiKeyAuth cfg r.2 rest
      (r.1 :: rr.1, rr.2)

/-- A sequence of requests through the `requestRateLimit` hook. -/
def runRequestRateLimit (windowMs maxRequests stateTtlMs maxTrackedClients : Nat)
    (m : List (String × RateLimitState)) :
    List (String × Nat) →
    List (Except AppErr Unit) × List (String × RateLimitState)
  | [] => ([], m)
  | e :: rest =>
      let r := requestRateLimit windowMs maxRequests stateTtlMs maxTrackedClients
        m e.1 e.2
      let rr := runRequestRateLimit windowMs maxRequests stateTtlMs
        maxTrackedClients r.2 rest
      (r.1 :: rr.1, rr.2)

/-- Results of fallible operations are compared in witnesses; `Except`
needs decidable equality for that. -/
instance {e a : Type} [DecidableEq e] [DecidableEq a] : DecidableEq (Except e a) := fun x y =>
  match x, y with
  | .error e1, .error e2 =>
      if h : e1 = e2 then isTrue (by rw [h])
      else isFalse (fun hh => h (Except.error.inj hh))
  | .ok v1, .ok v2 =>
      if h : v1 = v2 then isTrue (by rw [h])
      else isFalse (fun hh => h (Except.ok.inj hh))
  | .error _, .ok _ => isFalse (fun hh => Except.noConfusion hh)
  | .ok _, .error _ => isFalse (fun hh => Except.noConfusion hh)

/-- Sum of the inner lengths, the "actual record count" of the outer map. -/
def lensum (m : List (String × List (String × IdempotencyRecord))) : Nat :=
  (m.map (fun p => p.2.length)).sum

/-- The implicit invariant of the idempotency cache: the live counter equals
the actual number of records, and no per-budget map left in the outer map is
empty. -/
def CacheInv (s : EntryServiceState) : Prop :=
  s.idempotencyRecordCount = totalRecords s ∧
  ∀ p ∈ s.idempotencyRecords, p.2 ≠ []

/-- The outer map is a JS `Map`: its keys are unique. -/
def OuterNodup (s : EntryServiceState) : Prop :=
  (s.idempotencyRecords.map Prod.fst).Nodup

/-- All per-budget ids and idempotency keys in the cache are non-empty
strings (guaranteed by route validation: `budgetId` and `Idempotency-Key`
both have minimum length 1). -/
def NamesNonempty (s : EntryServiceState) : Prop :=
  ∀ p ∈ s.idempotencyRecords, p.1 ≠ "" ∧ ∀ q ∈ p.2, q.1 ≠ ""


/-! ### Association list lemmas -/

theorem aget_aset_self {α : Type} (m : List (String × α)) (k : String) (v : α) :
    aget (aset m k v) k = some v := by
  induction m with
  | nil => simp [aset, aget]
  | cons p rest ih =>
      obtain ⟨k', v'⟩ := p
      by_cases h : k' = k
      · simp [aset, aget, h]
      · simp [aset, aget, h, ih]

theorem aget_aset_ne {α : Type} (m : List (String × α)) (k k' : String) (v : α)
    (h : k' ≠ k) : aget (aset m k v) k' = aget m k' := by
  induction m with
  | nil =>
      simp only [aset, aget]
      rw [if_neg (fun hh => h (Eq.symm hh))]
  | cons p rest ih =>
      obtain ⟨k₀, v₀⟩ := p
      by_cases h₀ : k₀ = k
      · simp only [aset, if_pos h₀, aget]
        have hne : k₀ ≠ k' := fun hh => h (hh ▸ h₀)
        rw [if_neg hne, if_neg hne]
      · simp only [aset, if_neg h₀, aget]
        by_cases h₁ : k₀ = k'
        · rw [if_pos h₁, if_pos h₁]
        · rw [if_neg h₁, if_neg h₁, ih]

/-! ### Lock manager lemmas -/

theorem lockWaitFor_aset_self (locks : List (String × PTime)) (b : String)
    (t : PTime) : lockWaitFor (aset locks b t) b = t := by
  simp [lockWaitFor, aget_aset_self]

theorem lockWaitFor_aset_ne (locks : List (String × PTime)) (b b' : String)
    (t : PTime) (h : b' ≠ b) :
    lockWaitFor (aset locks b t) b' = lockWaitFor locks b' := by
  simp [lockWaitFor, aget_aset_ne _ _ _ _ h]

/-- After a timed-out waiter on budget `b` the stored tail is `none`, and
every later call on `b` then times out as well: the entry is poisoned. -/
theorem runLocksFrom_poisoned (b : String) :
    ∀ (cs : List LockCall) (locks : List (String × PTime)),
      lockWaitFor locks b = none →
      ∀ (j : Nat) (c : LockCall) (o : LockOutcome),
        cs[j]? = some c → c.budgetId = b →
        (runLocksFrom locks cs)[j]? = some o →
        o = .conflict (c.arrival + c.timeoutMs) := by
  intro cs
  induction cs with
  | nil => intro locks _ j c o hc _ _; simp at hc
  | cons c₀ rest ih =>
      intro locks hnone j c o hc hb ho
      match j with
      | 0 =>
          simp only [List.getElem?_cons_zero, Option.some.injEq] at hc
          subst hc
          rw [runLocksFrom] at ho
          simp only [lockStep, hb, hnone] at ho
          simp only [List.getElem?_cons_zero, Option.some.injEq] at ho
          exact ho.symm
      | j' + 1 =>
          simp only [List.getElem?_cons_succ] at hc
          rw [runLocksFrom] at ho
          simp only [List.getElem?_cons_succ] at ho
          by_cases hcb : c₀.budgetId = b
          · have hstep : (lockStep locks c₀).2 = aset locks c₀.budgetId none := by
              simp only [lockStep, hcb, hnone]
            refine ih (lockStep locks c₀).2 ?_ j' c o hc hb ho
            rw [hstep, hcb, lockWaitFor_aset_self]
          · have hstep : lockWaitFor (lockStep locks c₀).2 b = lockWaitFor locks b := by
              simp only [lockStep]
              cases hw : lockWaitFor locks c₀.budgetId with
              | none => simp [lockWaitFor_aset_ne _ _ _ _ (fun hh => hcb hh.symm)]
              | some r =>
                  by_cases ht : c₀.arrival + c₀.timeoutMs < r
                  · simp [ht, lockWaitFor_aset_ne _ _ _ _ (fun hh => hcb hh.symm)]
                  · simp [ht, lockWaitFor_aset_ne _ _ _ _ (fun hh => hcb hh.symm)]
            refine ih (lockStep locks c₀).2 ?_ j' c o hc hb ho
            rw [hstep]; exact hnone

theorem lockWaitFor_lockStep_ne (locks : List (String × PTime)) (c : LockCall)
    (b : String) (h : c.budgetId ≠ b) :
    lockWaitFor (lockStep locks c).2 b = lockWaitFor locks b := by
  have hne : b ≠ c.budgetId := fun hh => h (Eq.symm hh)
  simp only [lockStep]
  cases hw : lockWaitFor locks c.budgetId with
  | none => simp [lockWaitFor_aset_ne _ _ _ _ hne]
  | some r =>
      by_cases ht : c.arrival + c.timeoutMs < r
      · simp [ht, lockWaitFor_aset_ne _ _ _ _ hne]
      · simp [ht, lockWaitFor_aset_ne _ _ _ _ hne]

theorem lockStep_eq_none (locks : List (String × PTime)) (c : LockCall)
    (h : lockWaitFor locks c.budgetId = none) :
    lockStep locks c =
      (.conflict (c.arrival + c.timeoutMs), aset locks c.budgetId none) := by
  simp [lockStep, h]

theorem lockStep_eq_timeout (locks : List (String × PTime)) (c : LockCall)
    (r : Nat) (h : lockWaitFor locks c.budgetId = some r)
    (ht : c.arrival + c.timeoutMs < r) :
    lockStep locks c =
      (.conflict (c.arrival + c.timeoutMs), aset locks c.budgetId none) := by
  simp [lockStep, h, ht]

theorem lockStep_eq_ran (locks : List (String × PTime)) (c : LockCall)
    (r : Nat) (h : lockWaitFor locks c.budgetId = some r)
    (ht : ¬ c.arrival + c.timeoutMs < r) :
    lockStep locks c =
      (.ran (max c.arrival r) (max c.arrival r + c.duration),
       aset locks c.budgetId (some (max c.arrival r + c.duration))) := by
  simp [lockStep, h, ht]

/-- Once the tail for budget `b` has resolution time `r`, every later
admitted call on `b` starts no earlier than `r`. -/
theorem runLocksFrom_start_ge (b : String) :
    ∀ (cs : List LockCall) (locks : List (String × PTime)) (r : Nat),
      lockWaitFor locks b = some r →
      ∀ (j : Nat) (c : LockCall) (s f : Nat),
        cs[j]? = some c → c.budgetId = b →
        (runLocksFrom locks cs)[j]? = some (.ran s f) →
        r ≤ s := by
  intro cs
  induction cs with
  | nil => intro locks r _ j c s f hc _ _; simp at hc
  | cons c₀ rest ih =>
      intro locks r hr j c s f hc hb ho
      match j with
      | 0 =>
          simp only [List.getElem?_cons_zero, Option.some.injEq] at hc
          have hw : lockWaitFor locks c₀.budgetId = some r := by
            rw [hc, hb]; exact hr
          rw [runLocksFrom] at ho
          simp only [List.getElem?_cons_zero, Option.some.injEq] at ho
          by_cases ht : c₀.arrival + c₀.timeoutMs < r
          · rw [lockStep_eq_timeout locks c₀ r hw ht] at ho
            exact absurd ho (by simp)
          · rw [lockStep_eq_ran locks c₀ r hw ht] at ho
            simp only [LockOutcome.ran.injEq] at ho
            rw [← ho.1]
            exact le_max_right _ _
      | j' + 1 =>
          simp only [List.getElem?_cons_succ] at hc
          rw [runLocksFrom] at ho
          simp only [List.getElem?_cons_succ] at ho
          by_cases hcb : c₀.budgetId = b
          · have hw : lockWaitFor locks c₀.budgetId = some r := by
              rw [hcb]; exact hr
            by_cases ht : c₀.arrival + c₀.timeoutMs < r
            · rw [lockStep_eq_timeout locks c₀ r hw ht] at ho
              have := runLocksFrom_poisoned b rest
                (aset locks c₀.budgetId none)
                (by rw [hcb, lockWaitFor_aset_self]) j' c _ hc hb ho
              exact absurd this (by simp)
            · rw [lockStep_eq_ran locks c₀ r hw ht] at ho
              have hnext : lockWaitFor
                  (aset locks c₀.budgetId (some (max c₀.arrival r + c₀.duration))) b =
                  some (max c₀.arrival r + c₀.duration) := by
                rw [← hcb, lockWaitFor_aset_self]
              have hge := ih _ _ hnext j' c s f hc hb ho
              have hr2 : r ≤ max c₀.arrival r + c₀.duration :=
                le_trans (le_max_right _ _) (Nat.le_add_right _ _)
              exact le_trans hr2 hge
          · have hkeep : lockWaitFor (lockStep locks c₀).2 b = some r := by
              rw [lockWaitFor_lockStep_ne _ _ _ hcb]; exact hr
            exact ih _ _ hkeep j' c s f hc hb ho

/-- Critical sections on one budget id never overlap: if call `i` precedes
call `j` in registration order, both target the same budget id, and both
were admitted, then call `i` finished before call `j` started. -/
theorem runLocksFrom_sequential :
    ∀ (cs : List LockCall) (locks : List (String × PTime))
      (i j : Nat) (ci cj : LockCall) (si fi sj fj : Nat),
      i < j → cs[i]? = some ci → cs[j]? = some cj →
      ci.budgetId = cj.budgetId →
      (runLocksFrom locks cs)[i]? = some (.ran si fi) →
      (runLocksFrom locks cs)[j]? = some (.ran sj fj) →
      fi ≤ sj := by
  intro cs
  induction cs with
  | nil => intro locks i j ci cj si fi sj fj _ hc _ _ _ _; simp at hc
  | cons c₀ rest ih =>
      intro locks i j ci cj si fi sj fj hij hci hcj hb hoi hoj
      match i, j with
      | 0, 0 => exact absurd hij (by omega)
      | 0, j' + 1 =>
          simp only [List.getElem?_cons_zero, Option.some.injEq] at hci
          simp only [List.getElem?_cons_succ] at hcj
          rw [runLocksFrom] at hoi hoj
          simp only [List.getElem?_cons_zero, Option.some.injEq] at hoi
          simp only [List.getElem?_cons_succ] at hoj
          cases hw : lockWaitFor locks c₀.budgetId with
          | none =>
              rw [lockStep_eq_none locks c₀ hw] at hoi
              exact absurd hoi.symm (by simp)
          | some r =>
              by_cases ht : c₀.arrival + c₀.timeoutMs < r
              · rw [lockStep_eq_timeout locks c₀ r hw ht] at hoi
                exact absurd hoi.symm (by simp)
              · rw [lockStep_eq_ran locks c₀ r hw ht] at hoi
                rw [lockStep_eq_ran locks c₀ r hw ht] at hoj
                have hfi : max c₀.arrival r + c₀.duration = fi := by
                  have h2 := hoi.symm
                  simp only [LockOutcome.ran.injEq] at h2
                  exact (h2.2).symm
                have htail : lockWaitFor
                    (aset locks c₀.budgetId (some (max c₀.arrival r + c₀.duration)))
                    cj.budgetId = some fi := by
                  rw [← hb, ← hci, lockWaitFor_aset_self, hfi]
                exact runLocksFrom_start_ge cj.budgetId rest _ fi htail j' cj sj fj
                  hcj rfl hoj
      | i' + 1, j' + 1 =>
          simp only [List.getElem?_cons_succ] at hci hcj
          rw [runLocksFrom] at hoi hoj
          simp only [List.getElem?_cons_succ] at hoi hoj
          exact ih _ i' j' ci cj si fi sj fj (by omega) hci hcj hb hoi hoj

theorem selectBudget_cons (b : String) (c : LockCall) (cs : List LockCall)
    (o : LockOutcome) (outs : List LockOutcome) :
    selectBudget b (c :: cs) (o :: outs) =
      if c.budgetId == b then o :: selectBudget b cs outs
      else selectBudget b cs outs := by
  by_cases h : c.budgetId == b <;>
    simp [selectBudget, List.filter_cons, h]

/-- The outcome subsequence for one budget id is fully determined by that
budget's own calls: the calls for other budget ids do not affect it. -/
theorem selectBudget_runLocksFrom (b : String) :
    ∀ (cs : List LockCall) (locks : List (String × PTime)),
      selectBudget b cs (runLocksFrom locks cs) =
        runSingle (lockWaitFor locks b) (cs.filter (fun c => c.budgetId == b)) := by
  intro cs
  induction cs with
  | nil => intro locks; simp [selectBudget, runLocksFrom, runSingle, List.filter_nil]
  | cons c₀ rest ih =>
      intro locks
      rw [runLocksFrom, selectBudget_cons, List.filter_cons]
      by_cases hcb : c₀.budgetId = b
      · have hcbb : (c₀.budgetId == b) = true := by simp [hcb]
        rw [if_pos hcbb, if_pos hcbb]
        cases hw : lockWaitFor locks b with
        | none =>
            have hw' : lockWaitFor locks c₀.budgetId = none := by rw [hcb]; exact hw
            rw [lockStep_eq_none locks c₀ hw']
            rw [runSingle]
            have hnext : lockWaitFor (aset locks c₀.budgetId none) b = none := by
              rw [← hcb, lockWaitFor_aset_self]
            rw [ih, hnext]
        | some r =>
            have hw' : lockWaitFor locks c₀.budgetId = some r := by rw [hcb]; exact hw
            by_cases ht : c₀.arrival + c₀.timeoutMs < r
            · rw [lockStep_eq_timeout locks c₀ r hw' ht]
              rw [runSingle]
              have hnext : lockWaitFor (aset locks c₀.budgetId none) b = none := by
                rw [← hcb, lockWaitFor_aset_self]
              rw [if_pos ht, ih, hnext]
            · rw [lockStep_eq_ran locks c₀ r hw' ht]
              rw [runSingle]
              have hnext : lockWaitFor
                  (aset locks c₀.budgetId (some (max c₀.arrival r + c₀.duration))) b =
                  some (max c₀.arrival r + c₀.duration) := by
                rw [← hcb, lockWaitFor_aset_self]
              rw [if_neg ht, ih, hnext]
      · have hcbb : (c₀.budgetId == b) = false := by simp [hcb]
        rw [if_neg (by simp [hcbb]), if_neg (by simp [hcbb])]
        rw [ih, lockWaitFor_lockStep_ne _ _ _ hcb]

/-! ## Claim C2 — a lock timeout poisons the queue -/

/-- C2 (evaluation at the failing input, the scenario of the repository's
own "does not poison subsequent writes after a timed-out waiter" test): a
holder runs for 80ms, a second waiter times out after 10ms with a conflict,
and a third call arrives at t=100 — after the holder has released — with a
500ms timeout.  The timed-out waiter threw before its `release()` could
ever run, so the tail it left in the lock map never resolves: the third
call is NOT admitted (the claim and the repository's test expect
`ran 100 105`) but instead waits out its full timeout and fails with a
conflict at t=600. -/
theorem lock_timeout_poisons_later_waiters :
    runLocks [⟨"budget_abc", 0, 500, 80⟩, ⟨"budget_abc", 0, 10, 5⟩,
              ⟨"budget_abc", 100, 500, 5⟩] =
      [.ran 0 80, .conflict 10, .conflict 600] ∧
    runLocks [⟨"budget_abc", 0, 500, 80⟩, ⟨"budget_abc", 0, 10, 5⟩,
              ⟨"budget_abc", 100, 500, 5⟩] ≠
      [.ran 0 80, .conflict 10, .ran 100 105] := by
  constructor
  · rfl
  · decide

/-! ## Claim C5 — per-budget mutual exclusion, cross-budget isolation -/

/-- C5: for calls registered in arrival order, (1) two admitted calls on the
same budget id never overlap — the later call's `fn` starts no earlier than
the earlier call's `fn` finished (strict FIFO admission in registration
order), and (2) the outcome sequence of the calls on any one budget id
equals the single-budget run of just those calls: calls on other budget ids
never delay (or otherwise affect) them. -/
theorem withBudgetLock_serializes_per_budget (cs : List LockCall)
    (_hord : ArrivalsOrdered cs) :
    (∀ (i j : Nat) (ci cj : LockCall) (si fi sj fj : Nat),
        i < j → cs[i]? = some ci → cs[j]? = some cj →
        ci.budgetId = cj.budgetId →
        (runLocks cs)[i]? = some (.ran si fi) →
        (runLocks cs)[j]? = some (.ran sj fj) →
        fi ≤ sj) ∧
    (∀ b : String,
        selectBudget b cs (runLocks cs) =
          runSingle (some 0) (cs.filter (fun c => c.budgetId == b))) := by
  constructor
  · intro i j ci cj si fi sj fj hij hci hcj hb hoi hoj
    exact runLocksFrom_sequential cs [] i j ci cj si fi sj fj hij hci hcj hb hoi hoj
  · intro b
    have h := selectBudget_runLocksFrom b cs []
    rw [runLocks, h]
    rfl

/-- Witness for C5: three calls — two on budget `a` (the second arriving
while the first still runs), one on budget `b`.  The second `a`-call starts
exactly when the first finishes (t=10), and the `b`-outcomes equal the
isolated single-budget run of the `b`-call alone. -/
theorem withBudgetLock_serializes_per_budget_witness :
    (10 : Nat) ≤ 10 ∧
    selectBudget "b"
        [⟨"a", 0, 100, 10⟩, ⟨"b", 0, 100, 10⟩, ⟨"a", 5, 100, 10⟩]
        (runLocks [⟨"a", 0, 100, 10⟩, ⟨"b", 0, 100, 10⟩, ⟨"a", 5, 100, 10⟩]) =
      runSingle (some 0)
        (([⟨"a", 0, 100, 10⟩, ⟨"b", 0, 100, 10⟩,
           ⟨"a", 5, 100, 10⟩] : List LockCall).filter
          (fun c => c.budgetId == "b")) := by
  constructor
  · exact (withBudgetLock_serializes_per_budget
      [⟨"a", 0, 100, 10⟩, ⟨"b", 0, 100, 10⟩, ⟨"a", 5, 100, 10⟩]
      (by simp [ArrivalsOrdered, List.chain'_cons])).1 0 2 ⟨"a", 0, 100, 10⟩ ⟨"a", 5, 100, 10⟩ 0 10 10 20
      (by decide) (by decide) (by decide) rfl (by decide) (by decide)
  · exact (withBudgetLock_serializes_per_budget
      [⟨"a", 0, 100, 10⟩, ⟨"b", 0, 100, 10⟩, ⟨"a", 5, 100, 10⟩]
      (by simp [ArrivalsOrdered, List.chain'_cons])).2 "b"


/-! ## Claim C6 — amount conversion round-trip -/

/-- C6: for every external amount `a > 0` at cents precision and every flow,
internal conversion is sign-correct (strictly negative for expense,
non-negative for income, obtained by rounding `a * 100` to the nearest
integer) and `fromActualSignedAmount ∘ toActualSignedAmount` recovers
`(a, f)` exactly. -/
theorem toActual_fromActual_roundtrip (a : ℚ) (f : Flow) (k : ℤ)
    (hpos : 0 < a) (hcents : a = (k : ℚ) / 100) :
    fromActualSignedAmount (toActualSignedAmount a f) = (a, f) ∧
    toActualSignedAmount a .expense < 0 ∧
    0 ≤ toActualSignedAmount a .income := by
  have hk : (0 : ℤ) < k := by
    by_contra h
    push_neg at h
    have : a ≤ 0 := by
      rw [hcents]
      apply div_nonpos_of_nonpos_of_nonneg
      · exact_mod_cast h
      · norm_num
    linarith
  have hmul : a * 100 = (k : ℚ) := by
    rw [hcents]; field_simp
  have hround : toMinorUnits a = k := by
    unfold toMinorUnits jsRound
    rw [hmul]
    rw [Int.floor_eq_iff]
    constructor
    · linarith
    · linarith
  have habs : |k| = k := abs_of_pos hk
  refine ⟨?_, ?_, ?_⟩
  · cases f with
    | expense =>
        simp only [toActualSignedAmount, fromActualSignedAmount, fromMinorUnits, hround, habs]
        rw [Prod.mk.injEq]
        constructor
        · rw [hcents]; push_cast; rw [abs_neg, abs_of_pos (by exact_mod_cast hk)]
        · simp [hk]
    | income =>
        simp only [toActualSignedAmount, fromActualSignedAmount, fromMinorUnits, hround, habs]
        rw [Prod.mk.injEq]
        constructor
        · rw [hcents]; rw [abs_of_pos (by exact_mod_cast hk)]
        · simp [not_lt.mpr (le_of_lt hk)]
  · simp only [toActualSignedAmount, hround, habs]
    omega
  · simp only [toActualSignedAmount, hround, habs]
    omega

/-- Witness for C6 at `a = 12.34`, `k = 1234`, `f = expense` (the spec's own
example: `toInternal(12.34, expense) = -1234`). -/
theorem toActual_fromActual_roundtrip_witness :
    fromActualSignedAmount (toActualSignedAmount (1234 / 100 : ℚ) .expense) =
      ((1234 / 100 : ℚ), .expense) :=
  (toActual_fromActual_roundtrip (1234 / 100) .expense 1234 (by norm_num) (by norm_num)).1


/-! ## Claim C1 — budget catalog vs. the configured allowlist

`BudgetService.listBudgets` (src/actual/budgetService.ts, lines 18-38)
returns `autoBudgets` as-is whenever discovery yields a non-empty list; no
filtering against `configuredBudgets` happens anywhere in the function.  The
repository's own test ("filters auto-discovered budgets through configured
allowlist when configured budgets exist") feeds discovery
`[budget_allowed, budget_denied]` with allowlist `[budget_allowed]` and
expects only `budget_allowed` back. -/

/-- C1 (evaluation at the failing input): with discovery mode `auto`, a
configured allowlist containing only `budget_allowed`, and discovery
returning `budget_allowed` and `budget_denied`, `listBudgets` returns both
budgets — the discovered budget outside the allowlist is not excluded, so
the result is not the allowlist-filtered list the claim (and the
repository's own test) expects. -/
theorem listBudgets_ignores_allowlist :
    listBudgets
        ⟨.auto, [⟨"budget_allowed", "Allowed"⟩]⟩
        (.ok [⟨"budget_allowed", "Allowed Name From Actual"⟩,
              ⟨"budget_denied", "Denied"⟩]) =
      .ok [⟨"budget_allowed", "Allowed Name From Actual"⟩,
           ⟨"budget_denied", "Denied"⟩] ∧
    listBudgets
        ⟨.auto, [⟨"budget_allowed", "Allowed"⟩]⟩
        (.ok [⟨"budget_allowed", "Allowed Name From Actual"⟩,
              ⟨"budget_denied", "Denied"⟩]) ≠
      .ok [⟨"budget_allowed", "Allowed Name From Actual"⟩] := by
  constructor
  · rfl
  · intro h
    simp only [listBudgets] at h
    exact absurd (Except.ok.inj h) (by decide)


end EntryServer

namespace EntryServer

/-! ### Lookup lemmas for filtered and mapped association lists -/

theorem aget_filter_some {α : Type} (m : List (String × α)) (k : String)
    (v : α) (p : String × α → Bool) (hget : aget m k = some v)
    (hp : p (k, v) = true) : aget (m.filter p) k = some v := by
  induction m with
  | nil => simp [aget] at hget
  | cons q rest ih =>
      obtain ⟨k₀, v₀⟩ := q
      rw [aget] at hget
      by_cases hk : k₀ = k
      · rw [if_pos hk] at hget
        rw [Option.some.injEq] at hget
        subst hget
        subst hk
        rw [List.filter_cons, if_pos hp, aget, if_pos rfl]
      · rw [if_neg hk] at hget
        rw [List.filter_cons]
        by_cases hq : p (k₀, v₀) = true
        · rw [if_pos hq, aget, if_neg hk]
          exact ih hget
        · rw [if_neg hq]
          exact ih hget

theorem aget_filter_none {α : Type} (m : List (String × α)) (k : String)
    (p : String × α → Bool) (hget : aget m k = none) :
    aget (m.filter p) k = none := by
  induction m with
  | nil => simp [aget]
  | cons q rest ih =>
      obtain ⟨k₀, v₀⟩ := q
      rw [aget] at hget
      by_cases hk : k₀ = k
      · rw [if_pos hk] at hget
        exact absurd hget (by simp)
      · rw [if_neg hk] at hget
        rw [List.filter_cons]
        by_cases hq : p (k₀, v₀) = true
        · rw [if_pos hq, aget, if_neg hk]
          exact ih hget
        · rw [if_neg hq]
          exact ih hget

theorem aget_map_value {α β : Type} (m : List (String × α)) (k : String)
    (g : α → β) :
    aget (m.map (fun p => (p.1, g p.2))) k = (aget m k).map g := by
  induction m with
  | nil => simp [aget]
  | cons q rest ih =>
      obtain ⟨k₀, v₀⟩ := q
      by_cases hk : k₀ = k
      · simp [aget, hk]
      · simp only [List.map_cons, aget, if_neg hk]
        exact ih

/-! ### Idempotency cache lemmas -/

/-- Pruning keeps a record that has not expired. -/
theorem aget2_prune_kept (ttl : Nat) (s : EntryServiceState) (now : Nat)
    (budgetId key : String) (rec : IdempotencyRecord)
    (hget : aget2 s budgetId key = some rec)
    (hfresh : now - rec.createdAt ≤ ttl) :
    aget2 (pruneExpiredIdempotencyRecords ttl s now) budgetId key = some rec := by
  unfold aget2 at hget
  cases houter : aget s.idempotencyRecords budgetId with
  | none =>
      rw [houter] at hget
      exact Option.noConfusion hget
  | some inner =>
      rw [houter] at hget
      rw [Option.some_bind] at hget
      unfold pruneExpiredIdempotencyRecords aget2
      have hmap : aget (s.idempotencyRecords.map
          (fun p => (p.1, p.2.filter (fun q => now - q.2.createdAt ≤ ttl)))) budgetId =
          some (inner.filter (fun q => now - q.2.createdAt ≤ ttl)) := by
        rw [aget_map_value, houter]
        rfl
      have hinner : aget (inner.filter (fun q => now - q.2.createdAt ≤ ttl)) key =
          some rec :=
        aget_filter_some inner key rec _ hget (by simp [hfresh])
      have hnonempty : (!(inner.filter
          (fun q => now - q.2.createdAt ≤ ttl)).isEmpty) = true := by
        cases hl : inner.filter (fun q => now - q.2.createdAt ≤ ttl) with
        | nil => rw [hl] at hinner; exact Option.noConfusion hinner
        | cons a l => rfl
      have houterkept := aget_filter_some _ budgetId _
        (fun p => !p.2.isEmpty) hmap hnonempty
      rw [houterkept, Option.some_bind]
      exact hinner

/-- A key absent from an association list looks up to `none`. -/
theorem aget_none_of_not_mem {α : Type} (m : List (String × α)) (k : String)
    (h : k ∉ m.map Prod.fst) : aget m k = none := by
  induction m with
  | nil => rfl
  | cons q rest ih =>
      obtain ⟨k₀, v₀⟩ := q
      simp only [List.map_cons, List.mem_cons] at h
      push_neg at h
      rw [aget, if_neg (fun hh => h.1 hh.symm)]
      exact ih h.2

/-- Full characterization of lookup through `filter` on a duplicate-free
association list. -/
theorem aget_filter_eq {α : Type} (m : List (String × α)) (k : String)
    (p : String × α → Bool) (hnodup : (m.map Prod.fst).Nodup) :
    aget (m.filter p) k =
      match aget m k with
      | none => none
      | some v => if p (k, v) then some v else none := by
  induction m with
  | nil => rfl
  | cons q rest ih =>
      obtain ⟨k₀, v₀⟩ := q
      simp only [List.map_cons, List.nodup_cons] at hnodup
      by_cases hk : k₀ = k
      · subst hk
        by_cases hp : p (k₀, v₀) = true
        · simp [aget, List.filter_cons, hp]
        · simp only [List.filter_cons, hp, Bool.false_eq_true, if_false, aget,
            eq_self_iff_true, if_true]
          exact aget_filter_none rest k₀ p (aget_none_of_not_mem rest k₀ hnodup.1)
      · by_cases hp : p (k₀, v₀) = true
        · simp only [List.filter_cons, hp, if_true, aget, if_neg hk]
          exact ih hnodup.2
        · simp only [List.filter_cons, hp, Bool.false_eq_true, if_false, aget,
            if_neg hk]
          exact ih hnodup.2

/-- Mapping the values of an association list keeps its keys. -/
theorem map_value_keys {α β : Type} (m : List (String × α)) (g : α → β) :
    (m.map (fun p => (p.1, g p.2))).map Prod.fst = m.map Prod.fst := by
  induction m with
  | nil => rfl
  | cons q rest ih => simp only [List.map_cons, ih]

/-- Pruning cannot introduce a record. -/
theorem aget2_prune_none (ttl : Nat) (s : EntryServiceState) (now : Nat)
    (budgetId key : String)
    (hnodup : (s.idempotencyRecords.map Prod.fst).Nodup)
    (hget : aget2 s budgetId key = none) :
    aget2 (pruneExpiredIdempotencyRecords ttl s now) budgetId key = none := by
  unfold aget2 at hget
  unfold pruneExpiredIdempotencyRecords aget2
  have hnodup' : ((s.idempotencyRecords.map
      (fun p => (p.1, p.2.filter (fun q => now - q.2.createdAt ≤ ttl)))).map
      Prod.fst).Nodup := by
    rw [map_value_keys]
    exact hnodup
  rw [aget_filter_eq _ budgetId _ hnodup']
  rw [aget_map_value]
  cases houter : aget s.idempotencyRecords budgetId with
  | none => rfl
  | some inner =>
      rw [houter, Option.some_bind] at hget
      split
      · rfl
      next v hv =>
        have hv2 : inner.filter (fun q => now - q.2.createdAt ≤ ttl) = v :=
          Option.some.inj hv
        by_cases hb : (!v.isEmpty) = true
        · rw [if_pos hb, Option.some_bind, ← hv2]
          exact aget_filter_none inner key _ hget
        · rw [if_neg hb]
          rfl

/-- The record just stored is what a lookup finds. -/
theorem aget2_store (ttl maxRecords : Nat) (s : EntryServiceState)
    (budgetId key : String) (fp : Fingerprint) (resp : EntryResponseItem)
    (now : Nat) :
    aget2 (storeIdempotentResponse ttl maxRecords s budgetId key fp resp now)
      budgetId key = some ⟨fp, resp, now⟩ := by
  unfold storeIdempotentResponse aget2
  simp only []
  rw [aget_aset_self, Option.some_bind, aget_aset_self]

/-- A successful keyed `createEntry` that missed the cache leaves exactly
the fingerprint, response and `now` it computed in the cache. -/
theorem createEntry_ok_stores (ttl maxRecords : Nat) (bs : List String)
    (env : UpstreamEnv) (s : EntryServiceState) (input : CreateEntryInput)
    (now : Nat) (key : String) (resp : EntryResponseItem)
    (s1 : EntryServiceState) (tr : List UpstreamOp)
    (hkey : input.idempotencyKey = some key)
    (hmiss : aget2 s input.budgetId key = none)
    (hnodup : (s.idempotencyRecords.map Prod.fst).Nodup)
    (hok : createEntry ttl maxRecords bs env s input now = (.ok resp, s1, tr)) :
    aget2 s1 input.budgetId key =
      some ⟨fingerprintCreateInput input, resp, now⟩ := by
  unfold createEntry at hok
  by_cases hacc : bs.contains input.budgetId = true
  · rw [if_pos hacc, hkey] at hok
    have hmiss' := aget2_prune_none ttl s now input.budgetId key hnodup hmiss
    unfold getStoredIdempotentResponse at hok
    simp only [] at hok
    rw [hmiss'] at hok
    unfold createEntryUpstream at hok
    cases hA : findByName env.accounts input.account with
    | none =>
        rw [hA] at hok
        exact absurd (Prod.mk.inj hok).1 (by simp)
    | some account =>
        rw [hA] at hok
        cases hC : findByName env.categories input.category with
        | none =>
            rw [hC] at hok
            exact absurd (Prod.mk.inj hok).1 (by simp)
        | some category =>
            rw [hC, hkey] at hok
            simp only [] at hok
            rw [Prod.mk.injEq, Prod.mk.injEq] at hok
            obtain ⟨h1, h2, -⟩ := hok
            rw [← h2, aget2_store, Except.ok.inj h1]
  · rw [if_neg hacc] at hok
    exact absurd (Prod.mk.inj hok).1 (by simp)

/-- A `createEntry` call only succeeds on an accessible budget. -/
theorem createEntry_ok_accessible (ttl maxRecords : Nat) (bs : List String)
    (env : UpstreamEnv) (s : EntryServiceState) (input : CreateEntryInput)
    (now : Nat) (resp : EntryResponseItem) (s1 : EntryServiceState)
    (tr : List UpstreamOp)
    (hok : createEntry ttl maxRecords bs env s input now = (.ok resp, s1, tr)) :
    bs.contains input.budgetId = true := by
  by_cases hacc : bs.contains input.budgetId = true
  · exact hacc
  · unfold createEntry at hok
    rw [if_neg hacc] at hok
    exact absurd (Prod.mk.inj hok).1 (by simp)

/-- `getStoredIdempotentResponse` on a cache hit with a matching
fingerprint. -/
theorem getStored_hit (ttl : Nat) (s : EntryServiceState)
    (budgetId key : String) (fp : Fingerprint) (now : Nat)
    (rec : IdempotencyRecord)
    (h : aget2 (pruneExpiredIdempotencyRecords ttl s now) budgetId key = some rec)
    (hfp : rec.fingerprint = fp) :
    getStoredIdempotentResponse ttl s budgetId key fp now =
      (.ok (some rec.response), pruneExpiredIdempotencyRecords ttl s now) := by
  unfold getStoredIdempotentResponse
  simp only []
  rw [h]
  show (if rec.fingerprint ≠ fp then
      (Except.error AppErr.conflict, pruneExpiredIdempotencyRecords ttl s now)
    else (Except.ok (some rec.response), pruneExpiredIdempotencyRecords ttl s now)) =
    (Except.ok (some rec.response), pruneExpiredIdempotencyRecords ttl s now)
  rw [if_neg (by simp [hfp])]

/-- `getStoredIdempotentResponse` on a cache hit with a mismatched
fingerprint: conflict. -/
theorem getStored_conflict (ttl : Nat) (s : EntryServiceState)
    (budgetId key : String) (fp : Fingerprint) (now : Nat)
    (rec : IdempotencyRecord)
    (h : aget2 (pruneExpiredIdempotencyRecords ttl s now) budgetId key = some rec)
    (hfp : rec.fingerprint ≠ fp) :
    getStoredIdempotentResponse ttl s budgetId key fp now =
      (.error .conflict, pruneExpiredIdempotencyRecords ttl s now) := by
  unfold getStoredIdempotentResponse
  simp only []
  rw [h]
  show (if rec.fingerprint ≠ fp then
      (Except.error AppErr.conflict, pruneExpiredIdempotencyRecords ttl s now)
    else (Except.ok (some rec.response), pruneExpiredIdempotencyRecords ttl s now)) =
    (Except.error AppErr.conflict, pruneExpiredIdempotencyRecords ttl s now)
  rw [if_pos hfp]

/-! ## Claim C3 — idempotency-key replay and conflict -/

/-- C3: after a first keyed `createEntry` that missed the cache and
succeeded with response `resp`, (1) a second call with the same key and the
identical payload within the TTL returns the stored response — the same
generated id — having performed zero upstream calls (its trace is empty and
the upstream environment is irrelevant), and (2) a call with the same key
but a business payload with a different fingerprint fails with a conflict
(409) with zero upstream calls and leaves the stored record for that key
unchanged. -/
theorem createEntry_idempotency (ttl maxRecords : Nat) (bs : List String)
    (env env2 env3 : UpstreamEnv) (s : EntryServiceState)
    (input input2 : CreateEntryInput) (now1 now2 : Nat) (key : String)
    (resp : EntryResponseItem) (s1 : EntryServiceState) (tr1 : List UpstreamOp)
    (hkey : input.idempotencyKey = some key)
    (hmiss : aget2 s input.budgetId key = none)
    (hnodup : (s.idempotencyRecords.map Prod.fst).Nodup)
    (h1 : createEntry ttl maxRecords bs env s input now1 = (.ok resp, s1, tr1))
    (hfresh : now2 - now1 ≤ ttl) :
    createEntry ttl maxRecords bs env2 s1 input now2 =
      (.ok resp, pruneExpiredIdempotencyRecords ttl s1 now2, []) ∧
    (input2.budgetId = input.budgetId → input2.idempotencyKey = some key →
      fingerprintCreateInput input2 ≠ fingerprintCreateInput input →
      createEntry ttl maxRecords bs env3 s1 input2 now2 =
        (.error .conflict, pruneExpiredIdempotencyRecords ttl s1 now2, []) ∧
      aget2 (pruneExpiredIdempotencyRecords ttl s1 now2) input.budgetId key =
        aget2 s1 input.budgetId key) := by
  have hacc := createEntry_ok_accessible ttl maxRecords bs env s input now1
    resp s1 tr1 h1
  have hrec := createEntry_ok_stores ttl maxRecords bs env s input now1 key
    resp s1 tr1 hkey hmiss hnodup h1
  have hkept := aget2_prune_kept ttl s1 now2 input.budgetId key
    ⟨fingerprintCreateInput input, resp, now1⟩ hrec hfresh
  constructor
  · unfold createEntry
    rw [if_pos hacc]
    simp only [hkey]
    simp only [getStored_hit ttl s1 input.budgetId key
      (fingerprintCreateInput input) now2 _ hkept rfl]
  · intro hb2 hkey2 hfp
    unfold createEntry
    rw [if_pos (by rw [hb2]; exact hacc)]
    simp only [hkey2, hb2]
    simp only [getStored_conflict ttl s1 input.budgetId key
      (fingerprintCreateInput input2) now2 _ hkept
      (fun hh => hfp (Eq.symm hh))]
    constructor
    · trivial
    · rw [hkept, hrec]

/-- Witness for C3: a concrete first write with key `"k"` at `t=5`, replayed
at `t=7` with an unchanged payload and a different upstream environment:
the replay returns the stored response with an empty upstream trace. -/
theorem createEntry_idempotency_witness :
    createEntry 100 10 ["b"]
      ⟨[⟨"a2", "Other"⟩], [], [], "x", "y"⟩
      ⟨[("b", [("k", ⟨⟨1234/100, .expense, "2026-02-08", "Coffee", "Dining",
            "Checking", "n"⟩,
          ⟨"txn1", "b", 1234/100, .expense, "2026-02-08", "Coffee", "Dining",
            "Checking", some "n"⟩, 5⟩)])], 1⟩
      ⟨"b", 1234/100, .expense, "2026-02-08", "Coffee", "Dining", "Checking",
        some "n", some "k"⟩ 7 =
      (.ok ⟨"txn1", "b", 1234/100, .expense, "2026-02-08", "Coffee", "Dining",
          "Checking", some "n"⟩,
       pruneExpiredIdempotencyRecords 100
         ⟨[("b", [("k", ⟨⟨1234/100, .expense, "2026-02-08", "Coffee", "Dining",
              "Checking", "n"⟩,
            ⟨"txn1", "b", 1234/100, .expense, "2026-02-08", "Coffee", "Dining",
              "Checking", some "n"⟩, 5⟩)])], 1⟩ 7, []) :=
  (createEntry_idempotency 100 10 ["b"]
    ⟨[⟨"a1", "Checking"⟩], [⟨"c1", "Dining"⟩], [⟨"p1", "Coffee"⟩], "pNew", "txn1"⟩
    ⟨[⟨"a2", "Other"⟩], [], [], "x", "y"⟩
    ⟨[⟨"a2", "Other"⟩], [], [], "x", "y"⟩
    ⟨[], 0⟩
    ⟨"b", 1234/100, .expense, "2026-02-08", "Coffee", "Dining", "Checking",
      some "n", some "k"⟩
    ⟨"b", 1234/100, .expense, "2026-02-08", "Coffee", "Dining", "Checking",
      some "n", some "k"⟩
    5 7 "k"
    ⟨"txn1", "b", 1234/100, .expense, "2026-02-08", "Coffee", "Dining",
      "Checking", some "n"⟩
    ⟨[("b", [("k", ⟨⟨1234/100, .expense, "2026-02-08", "Coffee", "Dining",
          "Checking", "n"⟩,
        ⟨"txn1", "b", 1234/100, .expense, "2026-02-08", "Coffee", "Dining",
          "Checking", some "n"⟩, 5⟩)])], 1⟩
    [.syncOp, .getAccountsOp, .getCategoriesOp, .getPayeesOp,
     .createTransactionOp ⟨"a1", "c1", some "p1", "2026-02-08",
       toActualSignedAmount (1234 / 100) .expense, some "n"⟩,
     .syncOp]
    rfl rfl List.nodup_nil rfl (by decide)).1

/-! ## Claim C9 — name resolution on create -/

/-- C9: for a keyless `createEntry` on an accessible budget, (1) an account
name with no exact match fails with not-found (404) after only the read
calls — no payee creation and no upstream transaction create happen; (2) a
category name with no exact match behaves the same; (3) an unknown payee
name is created upstream and the write proceeds to completion, returning
the entry built from the caller's input and the upstream-minted id. -/
theorem createEntry_name_resolution (ttl maxRecords : Nat) (bs : List String)
    (env : UpstreamEnv) (s : EntryServiceState) (input : CreateEntryInput)
    (now : Nat)
    (hkey : input.idempotencyKey = none)
    (hacc : bs.contains input.budgetId = true) :
    (findByName env.accounts input.account = none →
      createEntry ttl maxRecords bs env s input now =
        (.error .notFound, s,
         [.syncOp, .getAccountsOp, .getCategoriesOp, .getPayeesOp]) ∧
      AppErr.notFound.statusCode = 404) ∧
    (∀ account, findByName env.accounts input.account = some account →
      findByName env.categories input.category = none →
      createEntry ttl maxRecords bs env s input now =
        (.error .notFound, s,
         [.syncOp, .getAccountsOp, .getCategoriesOp, .getPayeesOp]) ∧
      AppErr.notFound.statusCode = 404) ∧
    (∀ account category,
      findByName env.accounts input.account = some account →
      findByName env.categories input.category = some category →
      findByName env.payees input.payee = none →
      createEntry ttl maxRecords bs env s input now =
        (.ok ⟨env.createdId, input.budgetId, input.amount, input.flow,
           input.date, input.payee, category.name, account.name, input.notes⟩,
         s,
         [.syncOp, .getAccountsOp, .getCategoriesOp, .getPayeesOp,
          .createPayeeOp input.payee,
          .createTransactionOp ⟨account.id, category.id, some env.createdPayeeId,
            input.date, toActualSignedAmount input.amount input.flow,
            input.notes⟩,
          .syncOp])) := by
  refine ⟨?_, ?_, ?_⟩
  · intro hA
    refine ⟨?_, rfl⟩
    unfold createEntry
    rw [if_pos hacc]
    simp only [hkey]
    unfold createEntryUpstream
    rw [hA]
  · intro account hA hC
    refine ⟨?_, rfl⟩
    unfold createEntry
    rw [if_pos hacc]
    simp only [hkey]
    unfold createEntryUpstream
    rw [hA, hC]
  · intro account category hA hC hP
    unfold createEntry
    rw [if_pos hacc]
    simp only [hkey]
    unfold createEntryUpstream
    rw [hA, hC, hP]
    simp only [hkey, Option.getD_none, Option.isSome_none, Bool.false_eq_true,
      if_false, List.append_assoc, List.nil_append]
    rfl

/-- Witness for C9: an unknown payee `"NewPayee"` is created upstream and
the write completes, while known account and category resolve. -/
theorem createEntry_name_resolution_witness :
    createEntry 100 10 ["b"]
      ⟨[⟨"a1", "Checking"⟩], [⟨"c1", "Dining"⟩], [], "pNew", "txn9"⟩
      ⟨[], 0⟩
      ⟨"b", 5, .income, "2026-03-01", "NewPayee", "Dining", "Checking",
        none, none⟩ 0 =
      (.ok ⟨"txn9", "b", 5, .income, "2026-03-01", "NewPayee", "Dining",
          "Checking", none⟩,
       ⟨[], 0⟩,
       [.syncOp, .getAccountsOp, .getCategoriesOp, .getPayeesOp,
        .createPayeeOp "NewPayee",
        .createTransactionOp ⟨"a1", "c1", some "pNew", "2026-03-01",
          toActualSignedAmount 5 .income, none⟩,
        .syncOp]) :=
  (createEntry_name_resolution 100 10 ["b"]
    ⟨[⟨"a1", "Checking"⟩], [⟨"c1", "Dining"⟩], [], "pNew", "txn9"⟩
    ⟨[], 0⟩
    ⟨"b", 5, .income, "2026-03-01", "NewPayee", "Dining", "Checking",
      none, none⟩ 0 rfl rfl).2.2
    ⟨"a1", "Checking"⟩ ⟨"c1", "Dining"⟩ rfl rfl rfl

/-! ### Association-list arithmetic -/

theorem aget_mem {α : Type} (m : List (String × α)) (k : String) (v : α)
    (h : aget m k = some v) : (k, v) ∈ m := by
  induction m with
  | nil => exact Option.noConfusion h
  | cons q rest ih =>
      obtain ⟨k₀, v₀⟩ := q
      rw [aget] at h
      by_cases hk : k₀ = k
      · rw [if_pos hk] at h
        subst hk
        rw [Option.some.injEq] at h
        subst h
        exact List.mem_cons_self _ _
      · rw [if_neg hk] at h
        exact List.mem_cons_of_mem _ (ih h)

theorem aget_isSome_of_mem {α : Type} (m : List (String × α)) (k : String)
    (v : α) (h : (k, v) ∈ m) : (aget m k).isSome = true := by
  induction m with
  | nil => simp at h
  | cons q rest ih =>
      obtain ⟨k₀, v₀⟩ := q
      rw [List.mem_cons] at h
      rw [aget]
      by_cases hk : k₀ = k
      · rw [if_pos hk]; rfl
      · rw [if_neg hk]
        cases h with
        | inl hh =>
            exact absurd (congrArg Prod.fst hh).symm hk
        | inr hh => exact ih hh

theorem aget_of_mem_nodup {α : Type} (m : List (String × α)) (p : String × α)
    (hmem : p ∈ m) (hnodup : (m.map Prod.fst).Nodup) :
    aget m p.1 = some p.2 := by
  induction m with
  | nil => simp at hmem
  | cons q rest ih =>
      obtain ⟨k₀, v₀⟩ := q
      simp only [List.map_cons, List.nodup_cons] at hnodup
      rw [List.mem_cons] at hmem
      cases hmem with
      | inl hh =>
          subst hh
          rw [aget, if_pos rfl]
      | inr hh =>
          rw [aget]
          by_cases hk : k₀ = p.1
          · exfalso
            apply hnodup.1
            rw [hk]
            exact List.mem_map_of_mem Prod.fst hh
          · rw [if_neg hk]
            exact ih hh hnodup.2

theorem adel_of_aget_none {α : Type} (m : List (String × α)) (k : String)
    (h : aget m k = none) : adel m k = m := by
  induction m with
  | nil => rfl
  | cons q rest ih =>
      obtain ⟨k₀, v₀⟩ := q
      rw [aget] at h
      by_cases hk : k₀ = k
      · rw [if_pos hk] at h
        exact Option.noConfusion h
      · rw [if_neg hk] at h
        rw [adel, if_neg hk, ih h]

theorem aset_of_aget_self {α : Type} (m : List (String × α)) (k : String)
    (v : α) (h : aget m k = some v) : aset m k v = m := by
  induction m with
  | nil => exact Option.noConfusion h
  | cons q rest ih =>
      obtain ⟨k₀, v₀⟩ := q
      rw [aget] at h
      by_cases hk : k₀ = k
      · rw [if_pos hk] at h
        rw [Option.some.injEq] at h
        rw [aset, if_pos hk, h]
      · rw [if_neg hk] at h
        rw [aset, if_neg hk, ih h]

theorem mem_aset {α : Type} (m : List (String × α)) (k : String) (v : α)
    (p : String × α) (h : p ∈ aset m k v) : p ∈ m ∨ p = (k, v) := by
  induction m with
  | nil =>
      rw [aset] at h
      simp at h
      exact Or.inr h
  | cons q rest ih =>
      obtain ⟨k₀, v₀⟩ := q
      rw [aset] at h
      by_cases hk : k₀ = k
      · rw [if_pos hk] at h
        rw [List.mem_cons] at h
        cases h with
        | inl hh => subst hk; exact Or.inr (by rw [hh])
        | inr hh => exact Or.inl (List.mem_cons_of_mem _ hh)
      · rw [if_neg hk] at h
        rw [List.mem_cons] at h
        cases h with
        | inl hh => exact Or.inl (by rw [hh]; exact List.mem_cons_self _ _)
        | inr hh =>
            cases ih hh with
            | inl h2 => exact Or.inl (List.mem_cons_of_mem _ h2)
            | inr h2 => exact Or.inr h2

theorem adel_sublist {α : Type} (m : List (String × α)) (k : String) :
    List.Sublist (adel m k) m := by
  induction m with
  | nil => exact List.Sublist.refl _
  | cons q rest ih =>
      obtain ⟨k₀, v₀⟩ := q
      rw [adel]
      by_cases hk : k₀ = k
      · rw [if_pos hk]
        exact List.sublist_cons_self _ _
      · rw [if_neg hk]
        exact List.Sublist.cons₂ _ ih

theorem totalRecords_eq_lensum (s : EntryServiceState) :
    totalRecords s = lensum s.idempotencyRecords := rfl

theorem lensum_aset_present (m : List (String × List (String × IdempotencyRecord)))
    (b : String) (inner v : List (String × IdempotencyRecord))
    (h : aget m b = some inner) :
    lensum (aset m b v) + inner.length = lensum m + v.length := by
  induction m with
  | nil => exact Option.noConfusion h
  | cons q rest ih =>
      obtain ⟨k₀, v₀⟩ := q
      rw [aget] at h
      by_cases hk : k₀ = b
      · rw [if_pos hk] at h
        rw [Option.some.injEq] at h
        subst h
        rw [aset, if_pos hk]
        simp only [lensum, List.map_cons, List.sum_cons]
        omega
      · rw [if_neg hk] at h
        rw [aset, if_neg hk]
        simp only [lensum, List.map_cons, List.sum_cons]
        have := ih h
        simp only [lensum] at this
        omega

theorem aset_of_aget_none {α : Type} (m : List (String × α)) (k : String)
    (v : α) (h : aget m k = none) : aset m k v = m ++ [(k, v)] := by
  induction m with
  | nil => rfl
  | cons q rest ih =>
      obtain ⟨k₀, v₀⟩ := q
      rw [aget] at h
      by_cases hk : k₀ = k
      · rw [if_pos hk] at h
        exact Option.noConfusion h
      · rw [if_neg hk] at h
        rw [aset, if_neg hk, ih h, List.cons_append]

theorem lensum_adel (m : List (String × List (String × IdempotencyRecord)))
    (b : String) (inner : List (String × IdempotencyRecord))
    (h : aget m b = some inner) :
    lensum (adel m b) + inner.length = lensum m := by
  induction m with
  | nil => exact Option.noConfusion h
  | cons q rest ih =>
      obtain ⟨k₀, v₀⟩ := q
      rw [aget] at h
      by_cases hk : k₀ = b
      · rw [if_pos hk] at h
        rw [Option.some.injEq] at h
        subst h
        rw [adel, if_pos hk]
        simp only [lensum, List.map_cons, List.sum_cons]
        omega
      · rw [if_neg hk] at h
        rw [adel, if_neg hk]
        simp only [lensum, List.map_cons, List.sum_cons]
        have := ih h
        simp only [lensum] at this
        omega

theorem length_adel_present {α : Type} (m : List (String × α)) (k : String)
    (h : (aget m k).isSome = true) : (adel m k).length + 1 = m.length := by
  induction m with
  | nil => simp [aget] at h
  | cons q rest ih =>
      obtain ⟨k₀, v₀⟩ := q
      rw [aget] at h
      by_cases hk : k₀ = k
      · rw [adel, if_pos hk]
        simp
      · rw [if_neg hk] at h
        rw [adel, if_neg hk]
        simp only [List.length_cons]
        have := ih h
        omega

theorem length_aset_present {α : Type} (m : List (String × α)) (k : String)
    (v : α) (h : (aget m k).isSome = true) :
    (aset m k v).length = m.length := by
  induction m with
  | nil => simp [aget] at h
  | cons q rest ih =>
      obtain ⟨k₀, v₀⟩ := q
      rw [aget] at h
      by_cases hk : k₀ = k
      · rw [aset, if_pos hk]
        simp
      · rw [if_neg hk] at h
        rw [aset, if_neg hk]
        simp only [List.length_cons, ih h]

theorem mem_keys_aset {α : Type} (m : List (String × α)) (k b : String)
    (v : α) (h : b ∈ (aset m k v).map Prod.fst) :
    b ∈ m.map Prod.fst ∨ b = k := by
  induction m with
  | nil =>
      rw [aset] at h
      simp at h
      exact Or.inr h
  | cons q rest ih =>
      obtain ⟨k₀, v₀⟩ := q
      rw [aset] at h
      by_cases hk : k₀ = k
      · rw [if_pos hk] at h
        simp only [List.map_cons, List.mem_cons] at h ⊢
        cases h with
        | inl hh => exact Or.inl (Or.inl hh)
        | inr hh => exact Or.inl (Or.inr hh)
      · rw [if_neg hk] at h
        simp only [List.map_cons, List.mem_cons] at h ⊢
        cases h with
        | inl hh => exact Or.inl (Or.inl hh)
        | inr hh =>
            cases ih hh with
            | inl h2 => exact Or.inl (Or.inr h2)
            | inr h2 => exact Or.inr h2

theorem nodup_keys_aset {α : Type} (m : List (String × α)) (k : String)
    (v : α) (h : (m.map Prod.fst).Nodup) :
    ((aset m k v).map Prod.fst).Nodup := by
  induction m with
  | nil => simp [aset]
  | cons q rest ih =>
      obtain ⟨k₀, v₀⟩ := q
      simp only [List.map_cons, List.nodup_cons] at h
      rw [aset]
      by_cases hk : k₀ = k
      · rw [if_pos hk]
        simp only [List.map_cons, List.nodup_cons]
        exact h
      · rw [if_neg hk]
        simp only [List.map_cons, List.nodup_cons]
        refine ⟨?_, ih h.2⟩
        intro hmem
        cases mem_keys_aset rest k k₀ v hmem with
        | inl h2 => exact h.1 h2
        | inr h2 => exact hk h2

theorem nodup_keys_adel {α : Type} (m : List (String × α)) (k : String)
    (h : (m.map Prod.fst).Nodup) : ((adel m k).map Prod.fst).Nodup :=
  ((adel_sublist m k).map Prod.fst).nodup h

/-! ### Cache invariant (claim C10) -/

theorem lensum_ge_of_mem (m : List (String × List (String × IdempotencyRecord)))
    (p : String × List (String × IdempotencyRecord)) (h : p ∈ m) :
    p.2.length ≤ lensum m := by
  induction m with
  | nil => simp at h
  | cons q rest ih =>
      rw [List.mem_cons] at h
      simp only [lensum, List.map_cons, List.sum_cons]
      cases h with
      | inl hh => subst hh; omega
      | inr hh =>
          have := ih hh
          simp only [lensum] at this
          omega

theorem not_mem_keys_adel {α : Type} (m : List (String × α)) (k : String)
    (hnodup : (m.map Prod.fst).Nodup) : k ∉ (adel m k).map Prod.fst := by
  induction m with
  | nil => simp [adel]
  | cons q rest ih =>
      obtain ⟨k₀, v₀⟩ := q
      simp only [List.map_cons, List.nodup_cons] at hnodup
      rw [adel]
      by_cases hk : k₀ = k
      · rw [if_pos hk]
        rw [← hk]
        exact hnodup.1
      · rw [if_neg hk]
        simp only [List.map_cons, List.mem_cons]
        intro hmem
        cases hmem with
        | inl hh => exact hk hh.symm
        | inr hh => exact ih hnodup.2 hh

/-- Everything `deleteRecord` guarantees: invariant and key uniqueness are
preserved, a present record shrinks the total and counter by one, an absent
record is a no-op. -/
theorem deleteRecord_spec (s : EntryServiceState) (b k : String)
    (hinv : CacheInv s) (hnodup : OuterNodup s) :
    CacheInv (deleteRecord s b k) ∧ OuterNodup (deleteRecord s b k) ∧
    ((aget2 s b k).isSome = true →
      totalRecords (deleteRecord s b k) + 1 = totalRecords s ∧
      (deleteRecord s b k).idempotencyRecordCount + 1 =
        s.idempotencyRecordCount) ∧
    (aget2 s b k = none → deleteRecord s b k = s) := by
  obtain ⟨hcount, hne⟩ := hinv
  unfold deleteRecord
  cases houter : aget s.idempotencyRecords b with
  | none =>
      refine ⟨⟨hcount, hne⟩, hnodup, ?_, fun _ => rfl⟩
      intro hsome
      unfold aget2 at hsome
      rw [houter] at hsome
      simp at hsome
  | some inner =>
      simp only []
      have hget2 : aget2 s b k = aget inner k := by
        unfold aget2
        rw [houter, Option.some_bind]
      have hmem : (b, inner) ∈ s.idempotencyRecords := aget_mem _ _ _ houter
      have hinner_ne : inner ≠ [] := hne _ hmem
      have hinner_le : inner.length ≤ lensum s.idempotencyRecords :=
        lensum_ge_of_mem _ (b, inner) hmem
      have hsumA : lensum (aset s.idempotencyRecords b (adel inner k)) +
          inner.length = lensum s.idempotencyRecords + (adel inner k).length :=
        lensum_aset_present _ b inner _ houter
      have hnodupA : ((aset s.idempotencyRecords b (adel inner k)).map
          Prod.fst).Nodup := nodup_keys_aset _ b _ hnodup
      by_cases hdel : (aget inner k).isSome = true
      · rw [if_pos hdel]
        have hlen : (adel inner k).length + 1 = inner.length :=
          length_adel_present inner k hdel
        by_cases hempty : (adel inner k).isEmpty = true
        · rw [if_pos hempty]
          have hzero : (adel inner k).length = 0 := by
            cases hl : adel inner k with
            | nil => rfl
            | cons a l => rw [hl] at hempty; simp [List.isEmpty] at hempty
          have hgetA : aget (aset s.idempotencyRecords b (adel inner k)) b =
              some (adel inner k) := aget_aset_self _ b _
          have hsumB : lensum (adel (aset s.idempotencyRecords b (adel inner k)) b) +
              (adel inner k).length =
              lensum (aset s.idempotencyRecords b (adel inner k)) :=
            lensum_adel _ b _ hgetA
          refine ⟨⟨?_, ?_⟩, ?_, ?_, ?_⟩
          · simp only [totalRecords_eq_lensum] at *
            omega
          · intro p hp
            have hsub := (adel_sublist
              (aset s.idempotencyRecords b (adel inner k)) b).mem hp
            cases mem_aset _ _ _ _ hsub with
            | inl h2 => exact hne _ h2
            | inr h2 =>
                exfalso
                rw [h2] at hp
                exact not_mem_keys_adel _ b hnodupA
                  (List.mem_map_of_mem Prod.fst hp)
          · exact nodup_keys_adel _ b hnodupA
          · intro _
            constructor
            · simp only [totalRecords_eq_lensum] at *
              omega
            · rw [hcount, totalRecords_eq_lensum]
              omega
          · intro hno
            rw [hget2] at hno
            rw [hno] at hdel
            exact absurd hdel (by simp)
        · rw [if_neg hempty]
          refine ⟨⟨?_, ?_⟩, hnodupA, ?_, ?_⟩
          · simp only [totalRecords_eq_lensum] at *
            omega
          · intro p hp
            cases mem_aset _ _ _ _ hp with
            | inl h2 => exact hne _ h2
            | inr h2 =>
                rw [h2]
                show adel inner k ≠ []
                intro hemp
                rw [hemp] at hempty
                exact hempty rfl
          · intro _
            constructor
            · simp only [totalRecords_eq_lensum] at *
              omega
            · rw [hcount, totalRecords_eq_lensum]
              omega
          · intro hno
            rw [hget2] at hno
            rw [hno] at hdel
            exact absurd hdel (by simp)
      · have hnone : aget inner k = none := by
          cases hg : aget inner k with
          | none => rfl
          | some v => rw [hg] at hdel; exact absurd rfl hdel
        have hdelid : adel inner k = inner := adel_of_aget_none inner k hnone
        have hsame : aset s.idempotencyRecords b (adel inner k) =
            s.idempotencyRecords := by
          rw [hdelid]
          exact aset_of_aget_self _ b inner houter
        rw [if_neg hdel]
        have hempty : (adel inner k).isEmpty = false := by
          rw [hdelid]
          cases hl : inner with
          | nil => exact absurd hl hinner_ne
          | cons a l => rfl
        rw [hempty]
        simp only [Bool.false_eq_true, if_false, hsame]
        refine ⟨⟨hcount, hne⟩, hnodup, ?_, fun _ => trivial⟩
        intro hsome
        rw [hget2, hnone] at hsome
        exact absurd hsome (by simp)

theorem lensum_filter_le (m : List (String × List (String × IdempotencyRecord)))
    (g : String × List (String × IdempotencyRecord) → Bool) :
    lensum (m.filter g) ≤ lensum m := by
  induction m with
  | nil => exact le_refl _
  | cons q rest ih =>
      rw [List.filter_cons]
      by_cases hq : g q = true
      · rw [if_pos hq]
        simp only [lensum, List.map_cons, List.sum_cons]
        simp only [lensum] at ih
        omega
      · rw [if_neg hq]
        simp only [lensum, List.map_cons, List.sum_cons]
        simp only [lensum] at ih
        omega

theorem lensum_map_filter_le
    (m : List (String × List (String × IdempotencyRecord)))
    (q : String × IdempotencyRecord → Bool) :
    lensum (m.map (fun p => (p.1, p.2.filter q))) ≤ lensum m := by
  induction m with
  | nil => exact le_refl _
  | cons p rest ih =>
      simp only [lensum, List.map_cons, List.sum_cons]
      simp only [lensum] at ih
      have := List.length_filter_le q p.2
      omega

/-- `pruneExpiredIdempotencyRecords` preserves the cache invariant and key
uniqueness; its result holds exactly the unexpired records. -/
theorem prune_spec (ttl : Nat) (s : EntryServiceState) (now : Nat)
    (hinv : CacheInv s) (hnodup : OuterNodup s) :
    CacheInv (pruneExpiredIdempotencyRecords ttl s now) ∧
    OuterNodup (pruneExpiredIdempotencyRecords ttl s now) := by
  obtain ⟨hcount, hne⟩ := hinv
  have hle : lensum ((s.idempotencyRecords.map
      (fun p => (p.1, p.2.filter (fun q => now - q.2.createdAt ≤ ttl)))).filter
      (fun p => !p.2.isEmpty)) ≤ lensum s.idempotencyRecords :=
    le_trans (lensum_filter_le _ _) (lensum_map_filter_le _ _)
  refine ⟨⟨?_, ?_⟩, ?_⟩
  · simp only [pruneExpiredIdempotencyRecords, totalRecords_eq_lensum,
      lensum] at *
    omega
  · intro p hp
    simp only [pruneExpiredIdempotencyRecords] at hp
    have := (List.mem_filter.mp hp).2
    intro hemp
    rw [hemp] at this
    simp at this
  · simp only [OuterNodup, pruneExpiredIdempotencyRecords]
    refine ((List.filter_sublist _).map Prod.fst).nodup ?_
    rw [map_value_keys]
    exact hnodup

/-! ### Eviction lemmas -/

theorem allRecords_length (s : EntryServiceState) :
    (allRecords s).length = totalRecords s := by
  unfold allRecords totalRecords
  induction s.idempotencyRecords with
  | nil => rfl
  | cons p rest ih =>
      simp only [List.map_cons, List.flatten_cons, List.length_append,
        List.length_map, List.sum_cons, ih]

theorem findOldest_none (s : EntryServiceState)
    (h : findOldest s = none) : totalRecords s = 0 := by
  rw [← allRecords_length]
  unfold findOldest at h
  cases hl : allRecords s with
  | nil => rfl
  | cons x l =>
      exfalso
      rw [hl] at h
      rw [List.foldl_cons] at h
      have hstep : ∀ (acc : Option (String × String × Nat)) (l' :
          List (String × String × IdempotencyRecord)) (y : String × String × Nat),
          acc = some y →
          List.foldl (fun best q =>
            match best with
            | none => some (q.1, q.2.1, q.2.2.createdAt)
            | some (b, k, t) =>
                if q.2.2.createdAt < t then some (q.1, q.2.1, q.2.2.createdAt)
                else some (b, k, t)) acc l' ≠ none := by
        intro acc l' y hacc
        induction l' generalizing acc y with
        | nil => rw [hacc]; exact fun hh => Option.noConfusion hh
        | cons z l'' ih2 =>
            rw [List.foldl_cons, hacc]
            obtain ⟨b, k, t⟩ := y
            by_cases hc : z.2.2.createdAt < t
            · refine ih2 _ (z.1, z.2.1, z.2.2.createdAt) ?_
              show (if z.2.2.createdAt < t then some (z.1, z.2.1, z.2.2.createdAt)
                  else some (b, k, t)) = some (z.1, z.2.1, z.2.2.createdAt)
              rw [if_pos hc]
            · refine ih2 _ (b, k, t) ?_
              show (if z.2.2.createdAt < t then some (z.1, z.2.1, z.2.2.createdAt)
                  else some (b, k, t)) = some (b, k, t)
              rw [if_neg hc]
      exact hstep _ l _ rfl h

theorem findOldest_fold_mono :
    ∀ (l : List (String × String × IdempotencyRecord))
      (acc : Option (String × String × Nat)) (b k : String) (t : Nat)
      (b0 k0 : String) (t0 : Nat),
      acc = some (b0, k0, t0) →
      List.foldl (fun best q =>
        match best with
        | none => some (q.1, q.2.1, q.2.2.createdAt)
        | some (b, k, t) =>
            if q.2.2.createdAt < t then some (q.1, q.2.1, q.2.2.createdAt)
            else some (b, k, t)) acc l = some (b, k, t) →
      t ≤ t0 := by
  intro l
  induction l with
  | nil =>
      intro acc b k t b0 k0 t0 hacc hfold
      rw [List.foldl_nil, hacc] at hfold
      rw [Option.some.injEq] at hfold
      rw [(Prod.mk.inj (Prod.mk.inj hfold).2).2]
  | cons q rest ih =>
      intro acc b k t b0 k0 t0 hacc hfold
      rw [List.foldl_cons, hacc] at hfold
      by_cases hc : q.2.2.createdAt < t0
      · have := ih _ b k t q.1 q.2.1 q.2.2.createdAt
          (show (if q.2.2.createdAt < t0 then some (q.1, q.2.1, q.2.2.createdAt)
              else some (b0, k0, t0)) = some (q.1, q.2.1, q.2.2.createdAt) by
            rw [if_pos hc]) hfold
        omega
      · exact ih _ b k t b0 k0 t0
          (show (if q.2.2.createdAt < t0 then some (q.1, q.2.1, q.2.2.createdAt)
              else some (b0, k0, t0)) = some (b0, k0, t0) by
            rw [if_neg hc]) hfold

theorem findOldest_found (s : EntryServiceState) (b k : String) (t : Nat)
    (h : findOldest s = some (b, k, t)) :
    (∃ rec, (b, (k, rec)) ∈ allRecords s ∧ rec.createdAt = t) ∧
    (∀ x ∈ allRecords s, t ≤ x.2.2.createdAt) := by
  unfold findOldest at h
  have main : ∀ (l : List (String × String × IdempotencyRecord))
      (acc : Option (String × String × Nat)),
      List.foldl (fun best q =>
        match best with
        | none => some (q.1, q.2.1, q.2.2.createdAt)
        | some (b, k, t) =>
            if q.2.2.createdAt < t then some (q.1, q.2.1, q.2.2.createdAt)
            else some (b, k, t)) acc l = some (b, k, t) →
      ((∃ rec, (b, (k, rec)) ∈ l ∧ rec.createdAt = t) ∨ acc = some (b, k, t)) ∧
      (∀ x ∈ l, t ≤ x.2.2.createdAt) := by
    intro l
    induction l with
    | nil =>
        intro acc hfold
        rw [List.foldl_nil] at hfold
        exact ⟨Or.inr hfold, by intro x hx; simp at hx⟩
    | cons q rest ih =>
        intro acc hfold
        rw [List.foldl_cons] at hfold
        -- after one step the accumulator is a `some` bounded by this record
        have hstep : ∃ b1 k1 t1,
            (match acc with
              | none => some (q.1, q.2.1, q.2.2.createdAt)
              | some (b, k, t) =>
                  if q.2.2.createdAt < t then some (q.1, q.2.1, q.2.2.createdAt)
                  else some (b, k, t)) = some (b1, k1, t1) ∧
            t1 ≤ q.2.2.createdAt ∧
            (some (b1, k1, t1) = some (q.1, q.2.1, q.2.2.createdAt) ∨
              acc = some (b1, k1, t1)) := by
          cases acc with
          | none => exact ⟨q.1, q.2.1, q.2.2.createdAt, rfl, le_refl _, Or.inl rfl⟩
          | some y =>
              obtain ⟨b0, k0, t0⟩ := y
              by_cases hc : q.2.2.createdAt < t0
              · exact ⟨q.1, q.2.1, q.2.2.createdAt,
                  show (if q.2.2.createdAt < t0 then
                      some (q.1, q.2.1, q.2.2.createdAt)
                    else some (b0, k0, t0)) =
                    some (q.1, q.2.1, q.2.2.createdAt) by rw [if_pos hc],
                  le_refl _, Or.inl rfl⟩
              · exact ⟨b0, k0, t0,
                  show (if q.2.2.createdAt < t0 then
                      some (q.1, q.2.1, q.2.2.createdAt)
                    else some (b0, k0, t0)) = some (b0, k0, t0) by
                    rw [if_neg hc],
                  by omega, Or.inr rfl⟩
        obtain ⟨b1, k1, t1, hacc1, hle1, hsrc⟩ := hstep
        rw [hacc1] at hfold
        have hmono := findOldest_fold_mono rest _ b k t b1 k1 t1 rfl hfold
        obtain ⟨hfind, hall⟩ := ih _ hfold
        constructor
        · cases hfind with
          | inl hh =>
              obtain ⟨rec, hmem, hcr⟩ := hh
              exact Or.inl ⟨rec, List.mem_cons_of_mem _ hmem, hcr⟩
          | inr hh =>
              rw [Option.some.injEq] at hh
              have hb1 := (Prod.mk.inj hh).1
              have hk1 := (Prod.mk.inj (Prod.mk.inj hh).2).1
              have ht1 := (Prod.mk.inj (Prod.mk.inj hh).2).2
              cases hsrc with
              | inl h2 =>
                  rw [Option.some.injEq] at h2
                  left
                  refine ⟨q.2.2, ?_, ?_⟩
                  · have : q = (b, (k, q.2.2)) := by
                      rw [← hb1, ← hk1, (Prod.mk.inj h2).1,
                        (Prod.mk.inj (Prod.mk.inj h2).2).1]
                    rw [← this]
                    exact List.mem_cons_self _ _
                  · rw [← ht1, (Prod.mk.inj (Prod.mk.inj h2).2).2]
              | inr h2 =>
                  right
                  rw [h2, ← hb1, ← hk1, ← ht1]
        · intro x hx
          rw [List.mem_cons] at hx
          cases hx with
          | inl hh => rw [hh]; omega
          | inr hh => exact hall x hh
  have hres := main (allRecords s) none h
  refine ⟨?_, hres.2⟩
  cases hres.1 with
  | inl hh => exact hh
  | inr hh => exact Option.noConfusion hh

theorem mem_allRecords (s : EntryServiceState) (b k : String)
    (rec : IdempotencyRecord) (h : (b, (k, rec)) ∈ allRecords s) :
    ∃ inner, (b, inner) ∈ s.idempotencyRecords ∧ (k, rec) ∈ inner := by
  unfold allRecords at h
  rw [List.mem_flatten] at h
  obtain ⟨l, hl, hmem⟩ := h
  rw [List.mem_map] at hl
  obtain ⟨p, hp, hpl⟩ := hl
  rw [← hpl, List.mem_map] at hmem
  obtain ⟨q, hq, hqx⟩ := hmem
  have hb := (Prod.mk.inj hqx).1
  have hk := (Prod.mk.inj (Prod.mk.inj hqx).2).1
  have hrec := (Prod.mk.inj (Prod.mk.inj hqx).2).2
  refine ⟨p.2, ?_, ?_⟩
  · rw [← hb]
    exact hp
  · rw [← hk, ← hrec]
    exact hq

theorem evictOldest_eq_none (s : EntryServiceState)
    (hfind : findOldest s = none) :
    evictOldestIdempotencyRecord s = (false, s) := by
  unfold evictOldestIdempotencyRecord
  rw [hfind]

theorem evictOldest_eq_found (s : EntryServiceState) (b k : String) (t : Nat)
    (hfind : findOldest s = some (b, k, t)) (hb : b ≠ "") (hk : k ≠ "") :
    evictOldestIdempotencyRecord s = (true, deleteRecord s b k) := by
  unfold evictOldestIdempotencyRecord
  rw [hfind]
  show (if b = "" ∨ k = "" then ((false : Bool), s)
      else (true, deleteRecord s b k)) = (true, deleteRecord s b k)
  rw [if_neg (by simp [hb, hk])]

/-- `evictOldestIdempotencyRecord`: invariant preservation, and — when ids
and keys are non-empty — eviction succeeds exactly when records exist, and
it deletes one record. -/
theorem evictOldest_spec (s : EntryServiceState)
    (hinv : CacheInv s) (hnodup : OuterNodup s) (hnames : NamesNonempty s) :
    CacheInv (evictOldestIdempotencyRecord s).2 ∧
    OuterNodup (evictOldestIdempotencyRecord s).2 ∧
    ((evictOldestIdempotencyRecord s).1 = true →
      totalRecords (evictOldestIdempotencyRecord s).2 + 1 = totalRecords s) ∧
    ((evictOldestIdempotencyRecord s).1 = false →
      (evictOldestIdempotencyRecord s).2 = s ∧ totalRecords s = 0) := by
  cases hfind : findOldest s with
  | none =>
      rw [evictOldest_eq_none s hfind]
      exact ⟨hinv, hnodup, fun hh => by simp at hh,
        fun _ => ⟨rfl, findOldest_none s hfind⟩⟩
  | some x =>
      obtain ⟨b, k, t⟩ := x
      obtain ⟨⟨rec, hmem, -⟩, -⟩ := findOldest_found s b k t hfind
      obtain ⟨inner, hmemo, hmemi⟩ := mem_allRecords s b k rec hmem
      have hb : b ≠ "" := (hnames _ hmemo).1
      have hk : k ≠ "" := (hnames _ hmemo).2 _ hmemi
      rw [evictOldest_eq_found s b k t hfind hb hk]
      have hget2 : (aget2 s b k).isSome = true := by
        unfold aget2
        rw [aget_of_mem_nodup _ (b, inner) hmemo hnodup, Option.some_bind]
        exact aget_isSome_of_mem inner k rec hmemi
      obtain ⟨h1, h2, h3, -⟩ := deleteRecord_spec s b k hinv hnodup
      exact ⟨h1, h2, fun _ => (h3 hget2).1, fun hh => by simp at hh⟩

/-- `deleteRecord` keeps all names non-empty. -/
theorem deleteRecord_names (s : EntryServiceState) (b k : String)
    (hnames : NamesNonempty s) : NamesNonempty (deleteRecord s b k) := by
  unfold deleteRecord
  cases houter : aget s.idempotencyRecords b with
  | none => exact hnames
  | some inner =>
      simp only []
      have hinner : ∀ q ∈ adel inner k, q.1 ≠ "" := by
        intro q hq
        exact (hnames _ (aget_mem _ _ _ houter)).2 _ ((adel_sublist inner k).mem hq)
      intro p hp
      by_cases hempty : (adel inner k).isEmpty = true
      · rw [if_pos hempty] at hp
        have hp2 := (adel_sublist _ b).mem hp
        cases mem_aset _ _ _ _ hp2 with
        | inl h2 => exact hnames _ h2
        | inr h2 =>
            subst h2
            exact ⟨(hnames _ (aget_mem _ _ _ houter)).1, hinner⟩
      · rw [if_neg hempty] at hp
        cases mem_aset _ _ _ _ hp with
        | inl h2 => exact hnames _ h2
        | inr h2 =>
            subst h2
            exact ⟨(hnames _ (aget_mem _ _ _ houter)).1, hinner⟩

/-- `pruneExpiredIdempotencyRecords` keeps all names non-empty. -/
theorem prune_names (ttl : Nat) (s : EntryServiceState) (now : Nat)
    (hnames : NamesNonempty s) :
    NamesNonempty (pruneExpiredIdempotencyRecords ttl s now) := by
  unfold pruneExpiredIdempotencyRecords
  intro p hp
  have hp1 := (List.mem_filter.mp hp).1
  rw [List.mem_map] at hp1
  obtain ⟨p0, hp0, hpe⟩ := hp1
  constructor
  · rw [← hpe]
    exact (hnames _ hp0).1
  · intro q hq
    rw [← hpe] at hq
    exact (hnames _ hp0).2 _ ((List.filter_sublist _).mem hq)

theorem aget_adel_ne {α : Type} (m : List (String × α)) (k k' : String)
    (h : k' ≠ k) : aget (adel m k) k' = aget m k' := by
  induction m with
  | nil => rfl
  | cons q rest ih =>
      obtain ⟨k₀, v₀⟩ := q
      rw [adel]
      by_cases hk : k₀ = k
      · rw [if_pos hk, aget, if_neg (fun hh => h (by rw [← hh, hk]))]
      · rw [if_neg hk, aget, aget]
        by_cases hk' : k₀ = k'
        · rw [if_pos hk', if_pos hk']
        · rw [if_neg hk', if_neg hk', ih]

/-- `deleteRecord` never introduces a record. -/
theorem aget2_deleteRecord_none (s : EntryServiceState) (b' k' b k : String)
    (hnodup : OuterNodup s) (h : aget2 s b k = none) :
    aget2 (deleteRecord s b' k') b k = none := by
  unfold deleteRecord
  cases houter : aget s.idempotencyRecords b' with
  | none => exact h
  | some inner =>
      simp only []
      unfold aget2 at h ⊢
      by_cases hb : b' = b
      · subst hb
        rw [houter, Option.some_bind] at h
        have hinner : aget (adel inner k') k = none := by
          cases hg : aget (adel inner k') k with
          | none => rfl
          | some v =>
              have hmem := aget_mem _ _ _ hg
              have := aget_isSome_of_mem inner k v ((adel_sublist inner k').mem hmem)
              rw [h] at this
              exact absurd this (by simp)
        have hnodupA := nodup_keys_aset s.idempotencyRecords b' (adel inner k') hnodup
        by_cases hempty : (adel inner k').isEmpty = true
        · rw [if_pos hempty]
          simp only []
          cases hg : aget (adel (aset s.idempotencyRecords b' (adel inner k')) b') b' with
          | none => rfl
          | some v =>
              exfalso
              have hmem := aget_mem _ _ _ hg
              exact not_mem_keys_adel _ b' hnodupA
                (List.mem_map_of_mem Prod.fst hmem)
        · rw [if_neg hempty]
          simp only []
          rw [aget_aset_self, Option.some_bind]
          exact hinner
      · have hne : b ≠ b' := fun hh => hb (Eq.symm hh)
        by_cases hempty : (adel inner k').isEmpty = true
        · rw [if_pos hempty]
          simp only []
          rw [aget_adel_ne _ _ _ hne, aget_aset_ne _ _ _ _ hne]
          exact h
        · rw [if_neg hempty]
          simp only []
          rw [aget_aset_ne _ _ _ _ hne]
          exact h

/-- The eviction loop preserves the cache invariants and, with at least one
round of spare fuel, exits with the counter strictly below the cap (for a
positive cap with non-empty names). -/
theorem evictLoop_spec (maxRecords : Nat) (hmax : 1 ≤ maxRecords) :
    ∀ (fuel : Nat) (s : EntryServiceState),
      CacheInv s → OuterNodup s → NamesNonempty s →
      totalRecords s < fuel →
      CacheInv (evictLoop maxRecords fuel s) ∧
      OuterNodup (evictLoop maxRecords fuel s) ∧
      NamesNonempty (evictLoop maxRecords fuel s) ∧
      (evictLoop maxRecords fuel s).idempotencyRecordCount + 1 ≤ maxRecords ∧
      (∀ b k, aget2 s b k = none →
        aget2 (evictLoop maxRecords fuel s) b k = none) := by
  intro fuel
  induction fuel with
  | zero => intro s _ _ _ hlt; exact absurd hlt (Nat.not_lt_zero _)
  | succ fuel ih =>
      intro s hinv hnodup hnames hlt
      rw [evictLoop]
      by_cases hcap : maxRecords ≤ s.idempotencyRecordCount
      · rw [if_pos hcap]
        obtain ⟨h1, h2, h3, h4⟩ := evictOldest_spec s hinv hnodup hnames
        cases hev : (evictOldestIdempotencyRecord s).1 with
        | false =>
            have := (h4 hev).2
            rw [hinv.1, this] at hcap
            omega
        | true =>
            simp only [hev, eq_self_iff_true, if_true]
            have hdec := h3 hev
            have hnames2 : NamesNonempty (evictOldestIdempotencyRecord s).2 := by
              unfold evictOldestIdempotencyRecord
              cases hfind : findOldest s with
              | none => exact hnames
              | some x =>
                  obtain ⟨b, k, t⟩ := x
                  by_cases hbk : b = "" ∨ k = ""
                  · show NamesNonempty ((if b = "" ∨ k = "" then ((false : Bool), s)
                      else (true, deleteRecord s b k)).2)
                    rw [if_pos hbk]
                    exact hnames
                  · show NamesNonempty ((if b = "" ∨ k = "" then ((false : Bool), s)
                      else (true, deleteRecord s b k)).2)
                    rw [if_neg hbk]
                    exact deleteRecord_names s b k hnames
            have hlt2 : totalRecords (evictOldestIdempotencyRecord s).2 < fuel := by
              omega
            obtain ⟨g1, g2, g3, g4, g5⟩ := ih _ h1 h2 hnames2 hlt2
            refine ⟨g1, g2, g3, g4, ?_⟩
            intro b k hbk
            apply g5
            unfold evictOldestIdempotencyRecord
            cases hfind : findOldest s with
            | none => exact hbk
            | some x =>
                obtain ⟨b0, k0, t0⟩ := x
                by_cases hbk0 : b0 = "" ∨ k0 = ""
                · show aget2 ((if b0 = "" ∨ k0 = "" then ((false : Bool), s)
                    else (true, deleteRecord s b0 k0)).2) b k = none
                  rw [if_pos hbk0]
                  exact hbk
                · show aget2 ((if b0 = "" ∨ k0 = "" then ((false : Bool), s)
                    else (true, deleteRecord s b0 k0)).2) b k = none
                  rw [if_neg hbk0]
                  exact aget2_deleteRecord_none s b0 k0 b k hnodup hbk
      · rw [if_neg hcap]
        refine ⟨hinv, hnodup, hnames, by omega, fun b k hbk => hbk⟩

theorem aset_ne_nil {α : Type} (m : List (String × α)) (k : String) (v : α) :
    aset m k v ≠ [] := by
  cases m with
  | nil => simp [aset]
  | cons q rest =>
      rw [aset]
      by_cases hk : q.1 = k
      · rw [if_pos hk]; simp
      · rw [if_neg hk]; simp

theorem lensum_append_single
    (m : List (String × List (String × IdempotencyRecord)))
    (p : String × List (String × IdempotencyRecord)) :
    lensum (m ++ [p]) = lensum m + p.2.length := by
  simp [lensum]

/-- The eviction loop preserves the cache invariant, key uniqueness, and
the absence of any given record (no names assumption needed: a blocked
eviction simply ends the loop). -/
theorem evictLoop_preserves (maxRecords : Nat) (b k : String) :
    ∀ (fuel : Nat) (sp : EntryServiceState),
      CacheInv sp → OuterNodup sp → aget2 sp b k = none →
      totalRecords sp < fuel →
      CacheInv (evictLoop maxRecords fuel sp) ∧
      OuterNodup (evictLoop maxRecords fuel sp) ∧
      aget2 (evictLoop maxRecords fuel sp) b k = none := by
  intro fuel
  induction fuel with
  | zero => intro sp _ _ _ hlt; exact absurd hlt (Nat.not_lt_zero _)
  | succ fuel ih =>
      intro sp hinv1 hnodup1 hnone1 hlt
      rw [evictLoop]
      by_cases hcap : maxRecords ≤ sp.idempotencyRecordCount
      · rw [if_pos hcap]
        cases hev : (evictOldestIdempotencyRecord sp).1 with
        | false =>
            simp only [hev, Bool.false_eq_true, if_false]
            exact ⟨hinv1, hnodup1, hnone1⟩
        | true =>
            simp only [hev, eq_self_iff_true, if_true]
            cases hfind : findOldest sp with
            | none =>
                rw [evictOldest_eq_none sp hfind] at hev
                exact absurd hev (by simp)
            | some x =>
                obtain ⟨b0, k0, t0⟩ := x
                by_cases hbk0 : b0 = "" ∨ k0 = ""
                · exfalso
                  have heq : evictOldestIdempotencyRecord sp = (false, sp) := by
                    unfold evictOldestIdempotencyRecord
                    rw [hfind]
                    show (if b0 = "" ∨ k0 = "" then ((false : Bool), sp)
                        else (true, deleteRecord sp b0 k0)) = (false, sp)
                    rw [if_pos hbk0]
                  rw [heq] at hev
                  exact absurd hev (by simp)
                · rw [evictOldest_eq_found sp b0 k0 t0 hfind
                    (fun hh => hbk0 (Or.inl hh))
                    (fun hh => hbk0 (Or.inr hh))]
                  obtain ⟨d1, d2, d3, -⟩ :=
                    deleteRecord_spec sp b0 k0 hinv1 hnodup1
                  have hd : aget2 (deleteRecord sp b0 k0) b k = none :=
                    aget2_deleteRecord_none sp b0 k0 b k hnodup1 hnone1
                  obtain ⟨⟨rec, hmem, -⟩, -⟩ := findOldest_found sp b0 k0 t0 hfind
                  obtain ⟨inner, hmemo, hmemi⟩ := mem_allRecords sp b0 k0 rec hmem
                  have hget2 : (aget2 sp b0 k0).isSome = true := by
                    unfold aget2
                    rw [aget_of_mem_nodup _ (b0, inner) hmemo hnodup1,
                      Option.some_bind]
                    exact aget_isSome_of_mem inner k0 rec hmemi
                  have hdec := (d3 hget2).1
                  exact ih (deleteRecord sp b0 k0) d1 d2 hd (by omega)
      · rw [if_neg hcap]
        exact ⟨hinv1, hnodup1, hnone1⟩

/-- Inserting a record under a fresh key grows the total by exactly one. -/
theorem lensum_insert_fresh (sL : EntryServiceState) (b k : String)
    (rec : IdempotencyRecord) (hnone : aget2 sL b k = none) :
    lensum (aset sL.idempotencyRecords b
      (aset ((aget sL.idempotencyRecords b).getD []) k rec)) =
    lensum sL.idempotencyRecords + 1 := by
  unfold aget2 at hnone
  cases hi : aget sL.idempotencyRecords b with
  | none =>
      simp only [Option.getD_none]
      rw [show aset ([] : List (String × IdempotencyRecord)) k rec = [(k, rec)]
        from rfl]
      rw [aset_of_aget_none _ _ _ hi, lensum_append_single]
      rfl
  | some inner =>
      rw [hi, Option.some_bind] at hnone
      simp only [Option.getD_some]
      have hset := aset_of_aget_none inner k rec hnone
      have hsum := lensum_aset_present sL.idempotencyRecords b inner
        (aset inner k rec) hi
      simp only [hset, List.length_append, List.length_cons,
        List.length_nil] at hsum ⊢
      omega

/-- `storeIdempotentResponse`: the cache invariant and key uniqueness are
preserved; with a positive cap and non-empty names the stored total never
exceeds the cap; overwriting an existing key changes neither the counter
nor the total nor any other record, and triggers no pruning or eviction. -/
theorem storeIdempotentResponse_spec (ttl maxRecords : Nat)
    (s : EntryServiceState) (b k : String) (fp : Fingerprint)
    (resp : EntryResponseItem) (now : Nat)
    (hinv : CacheInv s) (hnodup : OuterNodup s) :
    CacheInv (storeIdempotentResponse ttl maxRecords s b k fp resp now) ∧
    OuterNodup (storeIdempotentResponse ttl maxRecords s b k fp resp now) ∧
    (1 ≤ maxRecords → NamesNonempty s → totalRecords s ≤ maxRecords →
      totalRecords (storeIdempotentResponse ttl maxRecords s b k fp resp now) ≤
        maxRecords) ∧
    (∀ rec0, aget2 s b k = some rec0 →
      (storeIdempotentResponse ttl maxRecords s b k fp resp
          now).idempotencyRecordCount = s.idempotencyRecordCount ∧
      totalRecords (storeIdempotentResponse ttl maxRecords s b k fp resp now) =
        totalRecords s ∧
      (∀ b' k', ¬ (b' = b ∧ k' = k) →
        aget2 (storeIdempotentResponse ttl maxRecords s b k fp resp now) b' k' =
          aget2 s b' k')) := by
  unfold storeIdempotentResponse
  by_cases hnew : (aget2 s b k).isNone = true
  · have hnone : aget2 s b k = none := by
      cases hg : aget2 s b k with
      | none => rfl
      | some v => rw [hg] at hnew; exact absurd hnew (by simp)
    simp only [hnew, if_true]
    obtain ⟨hinv1, hnodup1⟩ := prune_spec ttl s now hinv hnodup
    have hnone1 := aget2_prune_none ttl s now b k hnodup hnone
    obtain ⟨hinvL, hnodupL, hnoneL⟩ := evictLoop_preserves maxRecords b k
      (totalRecords (pruneExpiredIdempotencyRecords ttl s now) + 1)
      (pruneExpiredIdempotencyRecords ttl s now) hinv1 hnodup1 hnone1
      (by omega)
    have htotal := lensum_insert_fresh _ b k ⟨fp, resp, now⟩ hnoneL
    refine ⟨⟨?_, ?_⟩, ?_, ?_, ?_⟩
    · simp only [totalRecords_eq_lensum] at *
      rw [htotal, hinvL.1]
      simp only [totalRecords_eq_lensum]
    · intro p hp
      cases mem_aset _ _ _ _ hp with
      | inl h2 => exact hinvL.2 _ h2
      | inr h2 =>
          rw [h2]
          show aset ((aget (evictLoop maxRecords
            (totalRecords (pruneExpiredIdempotencyRecords ttl s now) + 1)
            (pruneExpiredIdempotencyRecords ttl s now)).idempotencyRecords
            b).getD []) k ⟨fp, resp, now⟩ ≠ []
          exact aset_ne_nil _ _ _
    · exact nodup_keys_aset _ _ _ hnodupL
    · intro hmax hnames _
      obtain ⟨-, -, -, hcap, -⟩ := evictLoop_spec maxRecords hmax
        (totalRecords (pruneExpiredIdempotencyRecords ttl s now) + 1)
        (pruneExpiredIdempotencyRecords ttl s now) hinv1 hnodup1
        (prune_names ttl s now hnames) (by omega)
      simp only [totalRecords_eq_lensum] at *
      rw [htotal]
      rw [hinvL.1] at hcap
      simp only [totalRecords_eq_lensum] at hcap
      omega
    · intro rec0 hrec0
      rw [hrec0] at hnone
      exact absurd hnone (by simp)
  · have hsome : ∃ rec0, aget2 s b k = some rec0 := by
      cases hg : aget2 s b k with
      | none => rw [hg] at hnew; exact absurd rfl hnew
      | some v => exact ⟨v, rfl⟩
    obtain ⟨rec0, hrec0⟩ := hsome
    simp only [hnew, Bool.false_eq_true, if_false]
    have houter : ∃ inner, aget s.idempotencyRecords b = some inner ∧
        (aget inner k).isSome = true := by
      unfold aget2 at hrec0
      cases hg : aget s.idempotencyRecords b with
      | none => rw [hg] at hrec0; exact Option.noConfusion hrec0
      | some inner =>
          rw [hg, Option.some_bind] at hrec0
          exact ⟨inner, rfl, by rw [hrec0]; rfl⟩
    obtain ⟨inner, hget, hksome⟩ := houter
    have hlen : (aset inner k (⟨fp, resp, now⟩ : IdempotencyRecord)).length =
        inner.length := length_aset_present inner k _ hksome
    have hsum := lensum_aset_present s.idempotencyRecords b inner
      (aset inner k ⟨fp, resp, now⟩) hget
    have htotal : lensum (aset s.idempotencyRecords b
        (aset ((aget s.idempotencyRecords b).getD []) k ⟨fp, resp, now⟩)) =
        lensum s.idempotencyRecords := by
      rw [hget]
      simp only [Option.getD_some]
      omega
    refine ⟨⟨?_, ?_⟩, ?_, ?_, ?_⟩
    · simp only [totalRecords_eq_lensum] at *
      rw [htotal]
      exact hinv.1
    · intro p hp
      cases mem_aset _ _ _ _ hp with
      | inl h2 => exact hinv.2 _ h2
      | inr h2 =>
          rw [h2]
          show aset ((aget s.idempotencyRecords b).getD []) k ⟨fp, resp, now⟩ ≠ []
          exact aset_ne_nil _ _ _
    · exact nodup_keys_aset _ _ _ hnodup
    · intro _ _ hle
      simp only [totalRecords_eq_lensum] at *
      rw [htotal]
      exact hle
    · intro rec1 hrec1
      refine ⟨trivial, ?_, ?_⟩
      · simp only [totalRecords_eq_lensum]
        rw [htotal]
      · intro b' k' hne
        unfold aget2
        by_cases hb' : b' = b
        · subst hb'
          rw [aget_aset_self, Option.some_bind, hget, Option.some_bind]
          simp only [Option.getD_some]
          have hk' : k' ≠ k := fun hh => hne ⟨rfl, hh⟩
          rw [aget_aset_ne _ _ _ _ hk']
        · rw [aget_aset_ne _ _ _ _ hb']

/-! ## Claim C10 — counter accuracy and no empty per-budget maps -/

/-- C10: from any state satisfying it, every idempotency cache operation —
store, TTL prune, oldest-record eviction, delete, and the cache lookup —
preserves the invariant that `idempotencyRecordCount` equals the actual
number of `(budgetId, key)` records and that no per-budget map left in the
outer map is empty (key uniqueness, the JS `Map` well-formedness of the
embedding, is preserved alongside); the initial state satisfies it. -/
theorem idempotency_cache_invariant (ttl maxRecords : Nat)
    (s : EntryServiceState) (b k : String) (fp : Fingerprint)
    (resp : EntryResponseItem) (now : Nat)
    (hinv : CacheInv s) (hnodup : OuterNodup s) :
    CacheInv EntryServiceState.emptyState ∧
    (CacheInv (deleteRecord s b k) ∧ OuterNodup (deleteRecord s b k)) ∧
    (CacheInv (pruneExpiredIdempotencyRecords ttl s now) ∧
      OuterNodup (pruneExpiredIdempotencyRecords ttl s now)) ∧
    (CacheInv (evictOldestIdempotencyRecord s).2 ∧
      OuterNodup (evictOldestIdempotencyRecord s).2) ∧
    (CacheInv (storeIdempotentResponse ttl maxRecords s b k fp resp now) ∧
      OuterNodup (storeIdempotentResponse ttl maxRecords s b k fp resp now)) ∧
    (CacheInv (getStoredIdempotentResponse ttl s b k fp now).2 ∧
      OuterNodup (getStoredIdempotentResponse ttl s b k fp now).2) := by
  have hdel := deleteRecord_spec s b k hinv hnodup
  have hprune := prune_spec ttl s now hinv hnodup
  have hstore := storeIdempotentResponse_spec ttl maxRecords s b k fp resp now
    hinv hnodup
  have hevict : CacheInv (evictOldestIdempotencyRecord s).2 ∧
      OuterNodup (evictOldestIdempotencyRecord s).2 := by
    cases hfind : findOldest s with
    | none =>
        rw [evictOldest_eq_none s hfind]
        exact ⟨hinv, hnodup⟩
    | some x =>
        obtain ⟨b0, k0, t0⟩ := x
        by_cases hbk0 : b0 = "" ∨ k0 = ""
        · have heq : evictOldestIdempotencyRecord s = (false, s) := by
            unfold evictOldestIdempotencyRecord
            rw [hfind]
            show (if b0 = "" ∨ k0 = "" then ((false : Bool), s)
                else (true, deleteRecord s b0 k0)) = (false, s)
            rw [if_pos hbk0]
          rw [heq]
          exact ⟨hinv, hnodup⟩
        · rw [evictOldest_eq_found s b0 k0 t0 hfind
            (fun hh => hbk0 (Or.inl hh)) (fun hh => hbk0 (Or.inr hh))]
          have := deleteRecord_spec s b0 k0 hinv hnodup
          exact ⟨this.1, this.2.1⟩
  have hgs : (getStoredIdempotentResponse ttl s b k fp now).2 =
      pruneExpiredIdempotencyRecords ttl s now := by
    unfold getStoredIdempotentResponse
    simp only []
    split
    · rfl
    · split
      · rfl
      · rfl
  have hget : CacheInv (getStoredIdempotentResponse ttl s b k fp now).2 ∧
      OuterNodup (getStoredIdempotentResponse ttl s b k fp now).2 := by
    rw [hgs]
    exact hprune
  exact ⟨⟨rfl, by intro p hp; simp [EntryServiceState.emptyState] at hp⟩,
    ⟨hdel.1, hdel.2.1⟩, hprune, hevict, ⟨hstore.1, hstore.2.1⟩, hget⟩

/-- Witness for C10 at a concrete one-record state. -/
theorem idempotency_cache_invariant_witness :
    CacheInv (deleteRecord
      ⟨[("b", [("k", ⟨⟨1, .income, "2026-01-01", "p", "c", "a", ""⟩,
        ⟨"t", "b", 1, .income, "2026-01-01", "p", "c", "a", none⟩, 0⟩)])], 1⟩
      "b" "k") := by
  have h := idempotency_cache_invariant 10 10
    ⟨[("b", [("k", ⟨⟨1, .income, "2026-01-01", "p", "c", "a", ""⟩,
      ⟨"t", "b", 1, .income, "2026-01-01", "p", "c", "a", none⟩, 0⟩)])], 1⟩
    "b" "k" ⟨1, .income, "2026-01-01", "p", "c", "a", ""⟩
    ⟨"t", "b", 1, .income, "2026-01-01", "p", "c", "a", none⟩ 0
    ⟨rfl, by intro p hp; simp at hp; rw [hp]; simp⟩
    (by simp [OuterNodup])
  exact h.2.1.1

/-! ### Stable age sort of the abuse-guard prunes -/

theorem insertByAge_perm {α : Type} (keyOf : α → Nat) (x : String × α) :
    ∀ (l : List (String × α)), (insertByAge keyOf x l).Perm (x :: l) := by
  intro l
  induction l with
  | nil => exact List.Perm.refl _
  | cons y ys ih =>
      rw [insertByAge]
      by_cases h : keyOf y.2 ≤ keyOf x.2
      · rw [if_pos h]
        exact (ih.cons y).trans (List.Perm.swap x y ys)
      · rw [if_neg h]

theorem sortByAge_perm {α : Type} (keyOf : α → Nat) (l : List (String × α)) :
    (sortByAge keyOf l).Perm l := by
  suffices h : ∀ (l' : List (String × α)) (acc : List (String × α)),
      (List.foldl (fun acc x => insertByAge keyOf x acc) acc l').Perm (acc ++ l') by
    simpa using h l []
  intro l'
  induction l' with
  | nil => intro acc; simp
  | cons x xs ih =>
      intro acc
      rw [List.foldl_cons]
      refine (ih (insertByAge keyOf x acc)).trans ?_
      have h1 : (insertByAge keyOf x acc ++ xs).Perm ((x :: acc) ++ xs) :=
        (insertByAge_perm keyOf x acc).append_right xs
      refine h1.trans ?_
      simp only [List.cons_append]
      exact (List.perm_middle).symm

theorem insertByAge_sorted {α : Type} (keyOf : α → Nat) (x : String × α)
    (l : List (String × α))
    (h : l.Pairwise (fun a b => keyOf a.2 ≤ keyOf b.2)) :
    (insertByAge keyOf x l).Pairwise (fun a b => keyOf a.2 ≤ keyOf b.2) := by
  induction l with
  | nil => simp [insertByAge]
  | cons y ys ih =>
      rw [List.pairwise_cons] at h
      rw [insertByAge]
      by_cases hc : keyOf y.2 ≤ keyOf x.2
      · rw [if_pos hc]
        rw [List.pairwise_cons]
        refine ⟨?_, ih h.2⟩
        intro z hz
        have := (insertByAge_perm keyOf x ys).mem_iff.mp hz
        rw [List.mem_cons] at this
        cases this with
        | inl hh => rw [hh]; exact hc
        | inr hh => exact h.1 z hh
      · rw [if_neg hc]
        rw [List.pairwise_cons]
        refine ⟨?_, List.pairwise_cons.mpr h⟩
        intro z hz
        rw [List.mem_cons] at hz
        cases hz with
        | inl hh => rw [hh]; omega
        | inr hh => exact le_trans (by omega) (h.1 z hh)

theorem sortByAge_sorted {α : Type} (keyOf : α → Nat) (l : List (String × α)) :
    (sortByAge keyOf l).Pairwise (fun a b => keyOf a.2 ≤ keyOf b.2) := by
  suffices h : ∀ (l' : List (String × α)) (acc : List (String × α)),
      acc.Pairwise (fun a b => keyOf a.2 ≤ keyOf b.2) →
      (List.foldl (fun acc x => insertByAge keyOf x acc) acc l').Pairwise
        (fun a b => keyOf a.2 ≤ keyOf b.2) by
    exact h l [] (by simp)
  intro l'
  induction l' with
  | nil => intro acc hacc; exact hacc
  | cons x xs ih =>
      intro acc hacc
      rw [List.foldl_cons]
      exact ih _ (insertByAge_sorted keyOf x acc hacc)

/-- Under unique keys, `Map.delete` removes exactly the entries keyed `k`. -/
theorem mem_adel_nodup {α : Type} (m : List (String × α)) (k : String)
    (h : (m.map Prod.fst).Nodup) (q : String × α) :
    q ∈ adel m k ↔ q ∈ m ∧ q.1 ≠ k := by
  induction m with
  | nil => simp [adel]
  | cons a rest ih =>
      rw [List.map_cons, List.nodup_cons] at h
      rw [adel]
      by_cases hak : a.1 = k
      · rw [if_pos hak]
        constructor
        · intro hq
          refine ⟨List.mem_cons_of_mem a hq, ?_⟩
          intro hqk
          exact h.1 (List.mem_map.mpr ⟨q, hq, by rw [hqk, hak]⟩)
        · rintro ⟨hmem, hne⟩
          rcases List.mem_cons.mp hmem with hh | hh
          · exact absurd (by rw [hh, hak]) hne
          · exact hh
      · rw [if_neg hak]
        by_cases hq : q = a
        · subst hq
          simp [hak]
        · simp only [List.mem_cons, hq, false_or]
          rw [ih h.2]

/-- Folding `Map.delete` over a key list removes exactly the entries whose
key is in the list. -/
theorem fold_adel_mem {α : Type} (ks : List String) :
    ∀ (m : List (String × α)), (m.map Prod.fst).Nodup →
    ∀ q, q ∈ List.foldl (fun m k => adel m k) m ks ↔ q ∈ m ∧ q.1 ∉ ks := by
  induction ks with
  | nil => intro m _ q; simp
  | cons k ks ih =>
      intro m h q
      rw [List.foldl_cons, ih (adel m k) (nodup_keys_adel m k h) q,
        mem_adel_nodup m k h q]
      simp only [List.mem_cons]
      tauto

/-- A key present in the map survives deleting a different key. -/
theorem mem_keys_adel_of_ne {α : Type} (m : List (String × α)) (k k' : String)
    (hne : k' ≠ k) (h : k' ∈ m.map Prod.fst) : k' ∈ (adel m k).map Prod.fst := by
  induction m with
  | nil => simp at h
  | cons a rest ih =>
      rw [List.map_cons, List.mem_cons] at h
      rw [adel]
      by_cases hak : a.1 = k
      · rw [if_pos hak]
        rcases h with hh | hh
        · exact absurd (by rw [hh, hak]) hne
        · exact hh
      · rw [if_neg hak, List.map_cons, List.mem_cons]
        rcases h with hh | hh
        · exact Or.inl hh
        · exact Or.inr (ih hh)

/-- A map key has a binding. -/
theorem aget_isSome_of_mem_keys {α : Type} (m : List (String × α)) (k : String)
    (h : k ∈ m.map Prod.fst) : (aget m k).isSome = true := by
  rcases List.mem_map.mp h with ⟨p, hp, hk⟩
  have : (p.1, p.2) ∈ m := by rw [Prod.mk.eta]; exact hp
  rw [← hk]
  exact aget_isSome_of_mem m p.1 p.2 this

/-- Folding `Map.delete` over distinct present keys shrinks the map by
exactly the number of keys. -/
theorem fold_adel_length {α : Type} (ks : List String) :
    ∀ (m : List (String × α)), ks.Nodup → (∀ k ∈ ks, k ∈ m.map Prod.fst) →
    (List.foldl (fun m k => adel m k) m ks).length + ks.length = m.length := by
  induction ks with
  | nil => intro m _ _; simp
  | cons k ks ih =>
      intro m hnd hpres
      rw [List.nodup_cons] at hnd
      rw [List.foldl_cons]
      have hrec := ih (adel m k) hnd.2 (fun k' hk' =>
        mem_keys_adel_of_ne m k k' (fun he => hnd.1 (he ▸ hk')) (hpres k' (List.mem_cons_of_mem k hk')))
      have hlen := length_adel_present m k
        (aget_isSome_of_mem_keys m k (hpres k (List.mem_cons_self k ks)))
      simp only [List.length_cons]
      omega

/-- Cap enforcement really caps: with unique keys, `dropOldest` leaves at
most `maxTracked` entries. -/
theorem dropOldest_length_le {α : Type} (keyOf : α → Nat) (l : List (String × α))
    (maxTracked : Nat) (h : (l.map Prod.fst).Nodup) :
    (dropOldest keyOf l maxTracked).length ≤ maxTracked := by
  rw [dropOldest]
  by_cases hle : l.length ≤ maxTracked
  · rw [if_pos hle]
    exact hle
  · rw [if_neg hle]
    show (List.foldl (fun m k => adel m k) l
      (((sortByAge keyOf l).take (l.length - maxTracked)).map Prod.fst)).length ≤ maxTracked
    have hperm : (sortByAge keyOf l).Perm l := sortByAge_perm keyOf l
    have hpermf : ((sortByAge keyOf l).map Prod.fst).Perm (l.map Prod.fst) :=
      hperm.map Prod.fst
    have hsnodup : ((sortByAge keyOf l).map Prod.fst).Nodup := hpermf.nodup_iff.mpr h
    have hsub : List.Sublist
        (((sortByAge keyOf l).take (l.length - maxTracked)).map Prod.fst)
        ((sortByAge keyOf l).map Prod.fst) :=
      (List.take_sublist _ _).map Prod.fst
    have hvnodup := hsub.nodup hsnodup
    have hvpres : ∀ k ∈ ((sortByAge keyOf l).take (l.length - maxTracked)).map Prod.fst,
        k ∈ l.map Prod.fst := fun k hk => hpermf.mem_iff.mp (hsub.subset hk)
    have hlen := fold_adel_length
      (((sortByAge keyOf l).take (l.length - maxTracked)).map Prod.fst) l hvnodup hvpres
    have hslen : (sortByAge keyOf l).length = l.length := hperm.length_eq
    have hvlen : (((sortByAge keyOf l).take (l.length - maxTracked)).map Prod.fst).length
        = l.length - maxTracked := by
      rw [List.length_map, List.length_take, hslen]
      omega
    omega

/-- Cap enforcement evicts oldest-first: with unique keys, every entry
`dropOldest` removes has an age key at most that of every survivor. -/
theorem dropOldest_oldest_first {α : Type} (keyOf : α → Nat)
    (l : List (String × α)) (maxTracked : Nat) (h : (l.map Prod.fst).Nodup)
    (q : String × α) (hq : q ∈ l) (hqout : q ∉ dropOldest keyOf l maxTracked)
    (p : String × α) (hp : p ∈ dropOldest keyOf l maxTracked) :
    keyOf q.2 ≤ keyOf p.2 := by
  rw [dropOldest] at hqout hp
  by_cases hle : l.length ≤ maxTracked
  · rw [if_pos hle] at hqout
    exact absurd hq hqout
  · rw [if_neg hle] at hqout hp
    have hqout' : q ∉ List.foldl (fun m k => adel m k) l
        (((sortByAge keyOf l).take (l.length - maxTracked)).map Prod.fst) := hqout
    have hp' : p ∈ List.foldl (fun m k => adel m k) l
        (((sortByAge keyOf l).take (l.length - maxTracked)).map Prod.fst) := hp
    have hperm : (sortByAge keyOf l).Perm l := sortByAge_perm keyOf l
    have hpermf : ((sortByAge keyOf l).map Prod.fst).Perm (l.map Prod.fst) :=
      hperm.map Prod.fst
    have hsnodup : ((sortByAge keyOf l).map Prod.fst).Nodup := hpermf.nodup_iff.mpr h
    have hmemiff := fold_adel_mem
      (((sortByAge keyOf l).take (l.length - maxTracked)).map Prod.fst) l h
    have hqvict : q.1 ∈ ((sortByAge keyOf l).take (l.length - maxTracked)).map Prod.fst := by
      by_contra hnk
      exact hqout' ((hmemiff q).mpr ⟨hq, hnk⟩)
    have hpmem := (hmemiff p).mp hp'
    have hqs : q ∈ sortByAge keyOf l := hperm.mem_iff.mpr hq
    have hps : p ∈ sortByAge keyOf l := hperm.mem_iff.mpr hpmem.1
    rcases List.mem_map.mp hqvict with ⟨r, hrtake, hrk⟩
    have hrs : r ∈ sortByAge keyOf l := (List.take_sublist _ _).subset hrtake
    have hgr := aget_of_mem_nodup (sortByAge keyOf l) r hrs hsnodup
    have hgq := aget_of_mem_nodup (sortByAge keyOf l) q hqs hsnodup
    rw [hrk] at hgr
    have hrq : r = q := by
      have h2 : r.2 = q.2 := by
        rw [hgr] at hgq
        exact Option.some.inj hgq
      calc r = (r.1, r.2) := by rw [Prod.mk.eta]
        _ = (q.1, q.2) := by rw [hrk, h2]
        _ = q := by rw [Prod.mk.eta]
    have hqtake : q ∈ (sortByAge keyOf l).take (l.length - maxTracked) := hrq ▸ hrtake
    have hpdrop : p ∈ (sortByAge keyOf l).drop (l.length - maxTracked) := by
      have := List.take_append_drop (l.length - maxTracked) (sortByAge keyOf l)
      have hsplit : p ∈ (sortByAge keyOf l).take (l.length - maxTracked) ++
          (sortByAge keyOf l).drop (l.length - maxTracked) := by rw [this]; exact hps
      rcases List.mem_append.mp hsplit with hh | hh
      · exact absurd (List.mem_map.mpr ⟨p, hh, rfl⟩) hpmem.2
      · exact hh
    have hsorted := sortByAge_sorted keyOf l
    rw [← List.take_append_drop (l.length - maxTracked) (sortByAge keyOf l)] at hsorted
    exact (List.pairwise_append.mp hsorted).2.2 q hqtake p hpdrop

/-- `Map.set` grows the map by at most one entry. -/
theorem length_aset_le {α : Type} (m : List (String × α)) (k : String) (v : α) :
    (aset m k v).length ≤ m.length + 1 := by
  induction m with
  | nil => simp [aset]
  | cons q rest ih =>
      rw [aset]
      by_cases hk : q.1 = k
      · rw [if_pos hk]
        simp
      · rw [if_neg hk]
        simp only [List.length_cons]
        omega

/-- `Map.set` twice on the same key grows the map by at most one entry. -/
theorem length_aset_aset_le {α : Type} (m : List (String × α)) (c : String)
    (st st' : α) :
    (aset (aset m c st) c st').length ≤ m.length + 1 := by
  have h1 : (aget (aset m c st) c).isSome = true := by
    rw [aget_aset_self]
    rfl
  rw [length_aset_present (aset m c st) c st' h1]
  exact length_aset_le m c st

/-- The post-state of one `requestRateLimit` call holds at most one entry
more than the configured client cap (the new client is inserted after the
prune, so the cap can be exceeded by exactly one until the next prune). -/
theorem requestRateLimit_length_le (windowMs maxRequests stateTtlMs maxTrackedClients : Nat)
    (m : List (String × RateLimitState)) (clientId : String) (now : Nat)
    (hmnodup : (m.map Prod.fst).Nodup) :
    ((requestRateLimit windowMs maxRequests stateTtlMs maxTrackedClients m clientId
      now).2).length ≤ maxTrackedClients + 1 := by
  have hfnodup : ((m.filter (fun p => now - p.2.lastSeenAt ≤ stateTtlMs)).map Prod.fst).Nodup :=
    ((List.filter_sublist m).map Prod.fst).nodup hmnodup
  have hm1 : (pruneRateLimitState m now stateTtlMs maxTrackedClients).length ≤
      maxTrackedClients :=
    dropOldest_length_le _ _ _ hfnodup
  by_cases hex : (aget (pruneRateLimitState m now stateTtlMs maxTrackedClients)
      clientId).isSome = true
  · simp only [requestRateLimit, hex, if_true]
    repeat' split
    all_goals dsimp only
    all_goals
      first
      | exact le_trans (length_aset_aset_le _ _ _ _) (Nat.add_le_add_right hm1 1)
      | exact le_trans (length_aset_le _ _ _) (Nat.add_le_add_right hm1 1)
  · rw [Bool.not_eq_true] at hex
    simp only [requestRateLimit, hex, Bool.false_eq_true, if_false]
    repeat' split
    all_goals dsimp only
    all_goals
      first
      | exact le_trans (length_aset_aset_le _ _ _ _) (Nat.add_le_add_right hm1 1)
      | exact le_trans (length_aset_le _ _ _) (Nat.add_le_add_right hm1 1)
      | exact le_trans hm1 (Nat.le_succ _)

/-- **C4** counterexample: with `maxTrackedClients = 1`, two requests from
distinct clients leave the rate-limit client map holding 2 entries — the
configured cap is exceeded at an observable point between operations,
because each request prunes to the cap first and inserts its own client
afterwards. -/
theorem rate_limit_cap_exceeded_between_operations :
    ((runRequestRateLimit 1000 5 1000 1 [] [("a", 0), ("b", 1)]).2).length = 2 ∧
    (runRequestRateLimit 1000 5 1000 1 [] [("a", 0), ("b", 1)]).1 =
      [Except.ok (), Except.ok ()] := by
  constructor
  · rfl
  · rfl

/-- **C4** (amended): the idempotency record map never exceeds its cap —
`storeIdempotentResponse` prunes and then evicts globally-oldest records
until there is room, so a cap-respecting state still respects the cap after
any store; `findOldest` (the eviction victim selector) picks a record whose
`createdAt` is minimal over all records; overwriting an existing key changes
neither the counter nor the total nor any other record.  The rate-limit
client map is pruned to `maxTrackedClients` at the start of every request
and therefore holds at most `maxTrackedClients + 1` entries after a request
(the cap itself can be exceeded by exactly one between operations — see the
counterexample); its cap eviction also removes oldest-`lastSeenAt` entries
first among the TTL survivors. -/
theorem caps_and_oldest_first_eviction
    (ttl maxRecords : Nat) (s : EntryServiceState) (b k : String)
    (fp : Fingerprint) (resp : EntryResponseItem) (now : Nat)
    (windowMs maxRequests stateTtlMs maxTrackedClients rnow : Nat)
    (m : List (String × RateLimitState)) (clientId : String)
    (hinv : CacheInv s) (hnodup : OuterNodup s) (hnames : NamesNonempty s)
    (hmax : 1 ≤ maxRecords) (hcap : totalRecords s ≤ maxRecords)
    (hmnodup : (m.map Prod.fst).Nodup) :
    totalRecords (storeIdempotentResponse ttl maxRecords s b k fp resp now) ≤ maxRecords ∧
    (∀ b' k' t, findOldest s = some (b', k', t) →
      (∃ rec, (b', (k', rec)) ∈ allRecords s ∧ rec.createdAt = t) ∧
      ∀ x ∈ allRecords s, t ≤ x.2.2.createdAt) ∧
    (∀ rec0, aget2 s b k = some rec0 →
      (storeIdempotentResponse ttl maxRecords s b k fp resp now).idempotencyRecordCount =
        s.idempotencyRecordCount ∧
      totalRecords (storeIdempotentResponse ttl maxRecords s b k fp resp now) =
        totalRecords s ∧
      (∀ b' k', ¬ (b' = b ∧ k' = k) →
        aget2 (storeIdempotentResponse ttl maxRecords s b k fp resp now) b' k' =
          aget2 s b' k')) ∧
    (pruneRateLimitState m rnow stateTtlMs maxTrackedClients).length ≤ maxTrackedClients ∧
    ((requestRateLimit windowMs maxRequests stateTtlMs maxTrackedClients m clientId
      rnow).2).length ≤ maxTrackedClients + 1 ∧
    (∀ q ∈ m.filter (fun p => rnow - p.2.lastSeenAt ≤ stateTtlMs),
      q ∉ pruneRateLimitState m rnow stateTtlMs maxTrackedClients →
      ∀ p ∈ pruneRateLimitState m rnow stateTtlMs maxTrackedClients,
        q.2.lastSeenAt ≤ p.2.lastSeenAt) := by
  obtain ⟨-, -, h3, h4⟩ :=
    storeIdempotentResponse_spec ttl maxRecords s b k fp resp now hinv hnodup
  have hfnodup : ((m.filter (fun p => rnow - p.2.lastSeenAt ≤ stateTtlMs)).map
      Prod.fst).Nodup :=
    ((List.filter_sublist m).map Prod.fst).nodup hmnodup
  refine ⟨h3 hmax hnames hcap, ?_, h4, dropOldest_length_le _ _ _ hfnodup,
    requestRateLimit_length_le windowMs maxRequests stateTtlMs maxTrackedClients
      m clientId rnow hmnodup, ?_⟩
  · intro b' k' t hf
    exact findOldest_found s b' k' t hf
  · intro q hq hqout p hp
    exact dropOldest_oldest_first _ _ _ hfnodup q hq hqout p hp

theorem caps_and_oldest_first_eviction_witness :
    totalRecords (storeIdempotentResponse 1000 1 EntryServiceState.emptyState "b" "k"
      ⟨5, Flow.expense, "2024-01-01", "p", "c", "a", ""⟩
      ⟨"id1", "b", 5, Flow.expense, "2024-01-01", "p", "c", "a", none⟩ 0) ≤ 1 :=
  (caps_and_oldest_first_eviction 1000 1 EntryServiceState.emptyState "b" "k"
    ⟨5, Flow.expense, "2024-01-01", "p", "c", "a", ""⟩
    ⟨"id1", "b", 5, Flow.expense, "2024-01-01", "p", "c", "a", none⟩ 0
    1000 5 1000 1 0 [] "c"
    ⟨rfl, by intro p hp; simp [EntryServiceState.emptyState] at hp⟩
    (by simp [OuterNodup, EntryServiceState.emptyState])
    (by intro p hp; simp [EntryServiceState.emptyState] at hp)
    (by omega) (by decide) (by simp)).1

/-- `Map.set` twice on the same key keeps only the second value. -/
theorem aset_aset {α : Type} (m : List (String × α)) (k : String) (v v' : α) :
    aset (aset m k v) k v' = aset m k v' := by
  induction m with
  | nil => simp [aset]
  | cons q rest ih =>
      by_cases hk : q.1 = k
      · simp [aset, hk]
      · simp [aset, hk, ih]

/-- When every entry survives the TTL sweep and the map is within the client
cap, `pruneFailures` changes nothing. -/
theorem pruneFailures_no_op (m : List (String × AuthFailureState))
    (now stateTtlMs maxTrackedClients : Nat)
    (hkeep : ∀ p ∈ m, ¬ (stateTtlMs < now - p.2.lastSeenAt ∧ p.2.blockedUntil ≤ now))
    (hlen : m.length ≤ maxTrackedClients) :
    pruneFailures m now stateTtlMs maxTrackedClients = m := by
  unfold pruneFailures
  have hfil : m.filter
      (fun p => ¬ (stateTtlMs < now - p.2.lastSeenAt ∧ p.2.blockedUntil ≤ now)) = m :=
    List.filter_eq_self.mpr (fun a ha => decide_eq_true (hkeep a ha))
  rw [hfil, dropOldest, if_pos hlen]

/-- A blocked client's failed attempt short-circuits to 429 with the time
left on the block; only the `lastSeenAt` stamp is written back. -/
theorem countFailedAttempt_blocked (cfg : AuthConfig)
    (m : List (String × AuthFailureState)) (c : String) (st : AuthFailureState)
    (now : Nat)
    (hprune : pruneFailures m now cfg.stateTtlMs cfg.maxTrackedClients = m)
    (hst : aget m c = some st) (hb : now < st.blockedUntil) :
    countFailedAttempt cfg m c now =
      (.error (.rateLimited (st.blockedUntil - now)),
       aset m c ⟨st.attempts, st.windowStartedAt, st.blockedUntil, now⟩) := by
  simp [countFailedAttempt, hprune, hst, hb]

/-- A fresh client's first failed attempt (below the attempt cap) records
one attempt and fails upstream with 401. -/
theorem countFailedAttempt_fresh (cfg : AuthConfig)
    (m : List (String × AuthFailureState)) (c : String) (now : Nat)
    (hprune : pruneFailures m now cfg.stateTtlMs cfg.maxTrackedClients = m)
    (hnone : aget m c = none) (hmax : 2 ≤ cfg.maxAttemptsPerWindow) :
    countFailedAttempt cfg m c now = (.ok (), aset m c ⟨1, now, 0, now⟩) := by
  have hm1 : ¬ (cfg.maxAttemptsPerWindow ≤ 0 + 1) := by omega
  by_cases hw : cfg.failureWindowMs = 0
  · simp [countFailedAttempt, hprune, hnone, hw, hm1]
  · simp [countFailedAttempt, hprune, hnone, hw, hm1, Nat.le_zero]

/-- The failed attempt that reaches the per-window cap trips the block:
429 with `retryAfterMs = blockDurationMs`, attempts reset, `blockedUntil`
set `blockDurationMs` into the future. -/
theorem countFailedAttempt_trip (cfg : AuthConfig)
    (m : List (String × AuthFailureState)) (c : String) (st : AuthFailureState)
    (now : Nat)
    (hprune : pruneFailures m now cfg.stateTtlMs cfg.maxTrackedClients = m)
    (hst : aget m c = some st) (hnb : st.blockedUntil = 0)
    (hw : now - st.windowStartedAt < cfg.failureWindowMs)
    (htrip : cfg.maxAttemptsPerWindow ≤ st.attempts + 1) :
    countFailedAttempt cfg m c now =
      (.error (.rateLimited cfg.blockDurationMs),
       aset m c ⟨0, st.windowStartedAt, now + cfg.blockDurationMs, now⟩) := by
  have hw' : ¬ (cfg.failureWindowMs ≤ now - st.windowStartedAt) := by omega
  simp [countFailedAttempt, hprune, hst, hnb, hw', htrip, aset_aset]

/-- **C7** counterexample: with `maxAttemptsPerWindow = 2`, two invalid
attempts from client `c` trip the block (second result is 429), yet the very
next attempt from `c` with a VALID key succeeds and wipes the failure state —
the valid path of the hook never consults `blockedUntil`, contradicting "the
next attempt — whether it presents a valid or an invalid API key — fails
with 429". -/
theorem blocked_client_valid_key_not_rejected :
    (runApiKeyAuth ⟨60000, 2, 120000, 900000, 10⟩ []
      [("c", AuthAttempt.invalid, 0), ("c", AuthAttempt.invalid, 1),
       ("c", AuthAttempt.valid, 2)]).1 =
      [Except.error AppErr.unauthorized, Except.error (AppErr.rateLimited 120000),
       Except.ok ()] ∧
    (runApiKeyAuth ⟨60000, 2, 120000, 900000, 10⟩ []
      [("c", AuthAttempt.invalid, 0), ("c", AuthAttempt.invalid, 1),
       ("c", AuthAttempt.valid, 2)]).2 = [] := by
  constructor
  · rfl
  · rfl

/-- **C7** (amended): once a client is blocked (`now < blockedUntil`), an
INVALID attempt fails with 429 carrying `retryAfterMs = blockedUntil - now`
(positive), but a VALID attempt succeeds and deletes the failure state — the
valid path never consults the block.  A different client with no failure
state is unaffected: its invalid attempt fails 401 (not 429, below the
attempt cap) and leaves the blocked client's state untouched.  The attempt
that reaches `maxAttemptsPerWindow` within one window trips the block: 429
with `retryAfterMs = blockDurationMs` and `blockedUntil = now +
blockDurationMs`.  Stated on any state whose entries all survive the TTL
sweep and that is within the client cap (so the prune is a no-op). -/
theorem blocked_client_handling (cfg : AuthConfig)
    (m : List (String × AuthFailureState)) (c : String) (st : AuthFailureState)
    (now : Nat)
    (hnodup : (m.map Prod.fst).Nodup)
    (hkeep : ∀ p ∈ m, ¬ (cfg.stateTtlMs < now - p.2.lastSeenAt ∧ p.2.blockedUntil ≤ now))
    (hlen : m.length ≤ cfg.maxTrackedClients)
    (hst : aget m c = some st) :
    (now < st.blockedUntil →
      apiKeyAuth cfg m c .invalid now =
        (.error (.rateLimited (st.blockedUntil - now)),
         aset m c ⟨st.attempts, st.windowStartedAt, st.blockedUntil, now⟩) ∧
      0 < st.blockedUntil - now ∧
      (AppErr.rateLimited (st.blockedUntil - now)).statusCode = 429) ∧
    (apiKeyAuth cfg m c .valid now = (.ok (), adel m c) ∧
      aget (adel m c) c = none) ∧
    (∀ c', aget m c' = none → 2 ≤ cfg.maxAttemptsPerWindow →
      apiKeyAuth cfg m c' .invalid now =
        (.error .unauthorized, aset m c' ⟨1, now, 0, now⟩) ∧
      aget (aset m c' ⟨1, now, 0, now⟩) c = some st) ∧
    (st.blockedUntil = 0 → now - st.windowStartedAt < cfg.failureWindowMs →
      cfg.maxAttemptsPerWindow ≤ st.attempts + 1 →
      apiKeyAuth cfg m c .invalid now =
        (.error (.rateLimited cfg.blockDurationMs),
         aset m c ⟨0, st.windowStartedAt, now + cfg.blockDurationMs, now⟩)) := by
  have hprune : pruneFailures m now cfg.stateTtlMs cfg.maxTrackedClients = m :=
    pruneFailures_no_op m now cfg.stateTtlMs cfg.maxTrackedClients hkeep hlen
  refine ⟨?_, ?_, ?_, ?_⟩
  · intro hb
    refine ⟨?_, by omega, rfl⟩
    have hc := countFailedAttempt_blocked cfg m c st now hprune hst hb
    simp only [apiKeyAuth, hprune, hc]
  · constructor
    · simp [apiKeyAuth, hprune]
    · exact aget_none_of_not_mem _ _ (not_mem_keys_adel m c hnodup)
  · intro c' hc' hmax2
    have hne : c ≠ c' := by
      intro he
      rw [he, hc'] at hst
      exact Option.noConfusion hst
    have hcf := countFailedAttempt_fresh cfg m c' now hprune hc' hmax2
    constructor
    · simp only [apiKeyAuth, hprune, hcf]
    · rw [aget_aset_ne m c' c _ hne]
      exact hst
  · intro hnb hw htrip
    have hcf := countFailedAttempt_trip cfg m c st now hprune hst hnb hw htrip
    simp only [apiKeyAuth, hprune, hcf]

theorem blocked_client_handling_witness :
    apiKeyAuth ⟨60000, 2, 120000, 900000, 10⟩ [("c", ⟨0, 1, 120001, 1⟩)] "c"
        AuthAttempt.invalid 2 =
      (Except.error (AppErr.rateLimited (120001 - 2)),
       aset [("c", ⟨0, 1, 120001, 1⟩)] "c" ⟨0, 1, 120001, 2⟩) ∧
    0 < 120001 - 2 ∧ (AppErr.rateLimited (120001 - 2)).statusCode = 429 :=
  (blocked_client_handling ⟨60000, 2, 120000, 900000, 10⟩ [("c", ⟨0, 1, 120001, 1⟩)]
    "c" ⟨0, 1, 120001, 1⟩ 2 (by simp) (by decide) (by decide) (by decide)).1
    (by decide)

/-- The comparator `txLe` spelled out: date strictly ascending, id ascending
as tie-break on equal dates. -/
theorem txLe_cases (a b : ActualTransaction) :
    txLe a b ↔ a.date < b.date ∨ (a.date = b.date ∧ a.id ≤ b.id) := by
  unfold txLe
  by_cases h : a.date = b.date
  · rw [if_pos h]
    constructor
    · intro hid
      exact Or.inr ⟨h, hid⟩
    · rintro (hlt | ⟨-, hid⟩)
      · exact absurd (h ▸ hlt) (lt_irrefl b.date)
      · exact hid
  · rw [if_neg h]
    constructor
    · intro hlt
      exact Or.inl hlt
    · rintro (hlt | ⟨he, -⟩)
      · exact hlt
      · exact absurd he h

/-- **C8**: on an accessible budget, `listEntries` keeps exactly the
transactions inside the inclusive `[from, to]` date window that match the
flow filter (`expense` = strictly negative amount, `income` = non-negative
including zero, `all` = everything), sorts the survivors by date ascending
with id as tie-break, reports `total` as the filtered count before
pagination, and returns the slice `[offset, offset + limit)` of the sorted
list, mapped to the external shape. -/
theorem listEntries_filter_sort_paginate (bs : List String) (env : ListEnv)
    (input : ListEntriesInput) (hacc : bs.contains input.budgetId = true) :
    ∃ l : List ActualTransaction,
      l.Perm (env.transactions.filter (keepTransaction input)) ∧
      l.Pairwise (fun a b => a.date < b.date ∨ (a.date = b.date ∧ a.id ≤ b.id)) ∧
      listEntries bs env input =
        .ok ⟨((l.drop input.offset).take input.limit).map
              (toEntryItem input.budgetId (mapById env.accounts)
                (mapById env.categories) (mapById env.payees)),
             input.limit, input.offset,
             (env.transactions.filter (keepTransaction input)).length⟩ ∧
      (∀ t, keepTransaction input t = true ↔
        (input.fromDate ≤ t.date ∧ t.date ≤ input.toDate ∧
          match input.flow with
          | .expense => t.amount < 0
          | .income => 0 ≤ t.amount
          | .all => True)) := by
  refine ⟨sortTransactions (env.transactions.filter (keepTransaction input)),
    List.perm_insertionSort txLe _, ?_, ?_, ?_⟩
  · have hs := List.sorted_insertionSort txLe
      (env.transactions.filter (keepTransaction input))
    exact List.Pairwise.imp (fun hab => (txLe_cases _ _).mp hab) hs
  · have hlen : (sortTransactions (env.transactions.filter (keepTransaction
        input))).length = (env.transactions.filter (keepTransaction input)).length :=
      (List.perm_insertionSort txLe _).length_eq
    simp only [listEntries, hacc, if_true, hlen]
  · intro t
    unfold keepTransaction
    by_cases hd : t.date < input.fromDate ∨ t.date > input.toDate
    · rw [if_pos hd]
      simp only [Bool.false_eq_true, false_iff]
      rintro ⟨h1, h2, -⟩
      rcases hd with hlt | hgt
      · exact absurd (lt_of_le_of_lt h1 hlt) (lt_irrefl _)
      · exact absurd (lt_of_le_of_lt h2 hgt) (lt_irrefl _)
    · rw [if_neg hd]
      push_neg at hd
      cases hf : input.flow with
      | all => exact ⟨fun _ => ⟨hd.1, hd.2, trivial⟩, fun _ => rfl⟩
      | expense =>
          simp only [decide_eq_true_eq]
          exact ⟨fun h => ⟨hd.1, hd.2, h⟩, fun h => h.2.2⟩
      | income =>
          simp only [decide_eq_true_eq]
          exact ⟨fun h => ⟨hd.1, hd.2, h⟩, fun h => h.2.2⟩

theorem listEntries_filter_sort_paginate_witness :
    ∃ l : List ActualTransaction,
      l.Perm ((ListEnv.mk [] [] []
        [⟨"t1", "2024-01-02", -500, "acc", none, none, none⟩,
         ⟨"t2", "2024-01-01", 250, "acc", none, none, none⟩]).transactions.filter
          (keepTransaction ⟨"b", "2024-01-01", "2024-12-31", ListFlow.all, 10, 0⟩)) ∧
      l.Pairwise (fun a b => a.date < b.date ∨ (a.date = b.date ∧ a.id ≤ b.id)) ∧
      listEntries ["b"] (ListEnv.mk [] [] []
        [⟨"t1", "2024-01-02", -500, "acc", none, none, none⟩,
         ⟨"t2", "2024-01-01", 250, "acc", none, none, none⟩])
        ⟨"b", "2024-01-01", "2024-12-31", ListFlow.all, 10, 0⟩ =
        .ok ⟨((l.drop (0 : Nat)).take (10 : Nat)).map
              (toEntryItem "b" (mapById []) (mapById []) (mapById [])),
             10, 0,
             ((ListEnv.mk [] [] []
               [⟨"t1", "2024-01-02", -500, "acc", none, none, none⟩,
                ⟨"t2", "2024-01-01", 250, "acc", none, none, none⟩]).transactions.filter
                 (keepTransaction ⟨"b", "2024-01-01", "2024-12-31", ListFlow.all, 10, 0⟩)).length⟩ ∧
      (∀ t, keepTransaction ⟨"b", "2024-01-01", "2024-12-31", ListFlow.all, 10, 0⟩ t = true ↔
        ("2024-01-01" ≤ t.date ∧ t.date ≤ "2024-12-31" ∧ True)) :=
  listEntries_filter_sort_paginate ["b"]
    (ListEnv.mk [] [] []
      [⟨"t1", "2024-01-02", -500, "acc", none, none, none⟩,
       ⟨"t2", "2024-01-01", 250, "acc", none, none, none⟩])
    ⟨"b", "2024-01-01", "2024-12-31", ListFlow.all, 10, 0⟩ (by decide)
